import Mathlib

set_option maxRecDepth 8000

/-!
Verification of the `mpc-matching` repository (SPDZ-based MPC engine and its
oblivious circuit library) against its natural-language specification.

The development shallowly embeds the relevant Rust code:

* field elements of the configured prime field are modelled as `ZMod p`
  (the code instantiates `ff::PrimeField` at Mersenne-61 / Mersenne-127);
* a party's SPDZ share (`src/mpc/src/spdz/share.rs`) is a structure holding
  the `value` and `mac` field elements together with the locally stored
  MAC-key share (`auth`) and `party_id`, exactly as the Rust struct does;
* a cross-party sharing is a vector `Fin n → SpdzShare F`; opening a sharing
  sums the per-party `value` components, which is what
  `process_openings_unchecked` computes;
* circuits (`src/mpc/src/circuits/*.rs`) are deterministic data-flow programs
  whose only communication primitive is opening; they are embedded as pure
  functions of their inputs and of the dealer-provided randomness, with
  `open_unchecked` returning the honest opened value;
* fallible code paths (`panic!`, protocol errors) are embedded in `Except`.
-/

namespace MpcMatching

/-- Value share in the SPDZ protocol, from `src/mpc/src/spdz/share.rs`:
the pair `(value, mac)` of field elements together with the party's MAC-key
share `auth` and its `party_id`, as carried by the Rust struct `SpdzShare`. -/
structure SpdzShare (F : Type) where
  value : F
  mac : F
  auth : F
  partyId : ℕ
deriving DecidableEq

variable {F : Type} [CommRing F]

/-- `impl Add for SpdzShare` (share.rs line 18): component-wise addition of
`value` and `mac`; `auth` and `party_id` are kept. -/
def SpdzShare.add (x y : SpdzShare F) : SpdzShare F :=
  ⟨x.value + y.value, x.mac + y.mac, x.auth, x.partyId⟩

/-- `impl Sub for SpdzShare` (share.rs line 34): component-wise subtraction. -/
def SpdzShare.sub (x y : SpdzShare F) : SpdzShare F :=
  ⟨x.value - y.value, x.mac - y.mac, x.auth, x.partyId⟩

/-- `impl Neg for SpdzShare` (share.rs line 82): component-wise negation. -/
def SpdzShare.neg (x : SpdzShare F) : SpdzShare F :=
  ⟨-x.value, -x.mac, x.auth, x.partyId⟩

/-- `impl Mul<T> for SpdzShare` (share.rs line 94): multiplication by a public
field element, applied to both `value` and `mac`. -/
def SpdzShare.mulConst (x : SpdzShare F) (c : F) : SpdzShare F :=
  ⟨x.value * c, x.mac * c, x.auth, x.partyId⟩

/-- `impl Add<T> for SpdzShare` (share.rs line 50): addition of a public
constant; only party 0 adds it to `value`, every party adds `c * auth`
to `mac`. -/
def SpdzShare.addConst (x : SpdzShare F) (c : F) : SpdzShare F :=
  ⟨if x.partyId = 0 then x.value + c else x.value, x.mac + c * x.auth,
    x.auth, x.partyId⟩

/-- `impl Sub<T> for SpdzShare` (share.rs line 66): subtraction of a public
constant. -/
def SpdzShare.subConst (x : SpdzShare F) (c : F) : SpdzShare F :=
  ⟨if x.partyId = 0 then x.value - c else x.value, x.mac - c * x.auth,
    x.auth, x.partyId⟩

/-- `share_plain` from `src/mpc/src/spdz/fake_dealer.rs` (lines 47-56):
the public constant `c` is represented by party 0 as value `c` and by every
other party as value `0`; every party's MAC share is `c * alpha_i` where
`alpha_i` is its MAC-key share. -/
def SpdzShare.sharePlain (c : F) (authKeyShare : F) (partyId : ℕ) :
    SpdzShare F :=
  ⟨if partyId = 0 then c else 0, c * authKeyShare, authKeyShare, partyId⟩

/-- The cross-party SPDZ invariant (spec section 3, "Authenticated share"):
party `i` stores its MAC-key share `alpha i` inside its shares, the
per-party values sum to the secret `x`, and the per-party MACs sum to
`alpha * x` where `alpha` is the sum of the `alpha i`. -/
def SharesOf {n : ℕ} (alpha : Fin n → F) (s : Fin n → SpdzShare F) (x : F) :
    Prop :=
  (∀ i, (s i).auth = alpha i ∧ (s i).partyId = (i : ℕ)) ∧
  (∑ i, (s i).value) = x ∧
  (∑ i, (s i).mac) = (∑ i, alpha i) * x

/-- Opening a sharing: the sum of the per-party `value` components, which is
the plaintext computed by `process_openings_unchecked` (engine.rs). -/
def openValue {n : ℕ} (s : Fin n → SpdzShare F) : F := ∑ i, (s i).value

instance {n : ℕ} [DecidableEq F] (alpha : Fin n → F) (s : Fin n → SpdzShare F)
    (x : F) : Decidable (SharesOf alpha s x) := by
  unfold SharesOf
  infer_instance

lemma sum_ite_partyZero {n : ℕ} (hn : 0 < n) (c : F) :
    (∑ i : Fin n, if (i : ℕ) = 0 then c else 0) = c := by
  have h : (∑ i : Fin n, if (i : ℕ) = 0 then c else 0)
      = ∑ i : Fin n, if i = ⟨0, hn⟩ then c else 0 := by
    refine Finset.sum_congr rfl fun i _ => ?_
    congr 1
    simp [Fin.ext_iff]
  rw [h, Finset.sum_ite_eq' Finset.univ (⟨0, hn⟩ : Fin n) (fun _ => c)]
  simp

lemma sharesOf_add {n : ℕ} {alpha : Fin n → F} {s t : Fin n → SpdzShare F}
    {x y : F} (hs : SharesOf alpha s x) (ht : SharesOf alpha t y) :
    SharesOf alpha (fun i => (s i).add (t i)) (x + y) := by
  obtain ⟨hw, hv, hm⟩ := hs
  obtain ⟨_, hv', hm'⟩ := ht
  refine ⟨fun i => ⟨(hw i).1, (hw i).2⟩, ?_, ?_⟩
  · simp only [SpdzShare.add, Finset.sum_add_distrib, hv, hv']
  · simp only [SpdzShare.add, Finset.sum_add_distrib, hm, hm']
    ring

lemma sharesOf_sub {n : ℕ} {alpha : Fin n → F} {s t : Fin n → SpdzShare F}
    {x y : F} (hs : SharesOf alpha s x) (ht : SharesOf alpha t y) :
    SharesOf alpha (fun i => (s i).sub (t i)) (x - y) := by
  obtain ⟨hw, hv, hm⟩ := hs
  obtain ⟨_, hv', hm'⟩ := ht
  refine ⟨fun i => ⟨(hw i).1, (hw i).2⟩, ?_, ?_⟩
  · simp only [SpdzShare.sub, Finset.sum_sub_distrib, hv, hv']
  · simp only [SpdzShare.sub, Finset.sum_sub_distrib, hm, hm']
    ring

lemma sharesOf_neg {n : ℕ} {alpha : Fin n → F} {s : Fin n → SpdzShare F}
    {x : F} (hs : SharesOf alpha s x) :
    SharesOf alpha (fun i => (s i).neg) (-x) := by
  obtain ⟨hw, hv, hm⟩ := hs
  refine ⟨fun i => ⟨(hw i).1, (hw i).2⟩, ?_, ?_⟩
  · simp only [SpdzShare.neg, Finset.sum_neg_distrib, hv]
  · simp only [SpdzShare.neg, Finset.sum_neg_distrib, hm]
    ring

lemma sharesOf_mulConst {n : ℕ} {alpha : Fin n → F} {s : Fin n → SpdzShare F}
    {x : F} (c : F) (hs : SharesOf alpha s x) :
    SharesOf alpha (fun i => (s i).mulConst c) (x * c) := by
  obtain ⟨hw, hv, hm⟩ := hs
  refine ⟨fun i => ⟨(hw i).1, (hw i).2⟩, ?_, ?_⟩
  · simp only [SpdzShare.mulConst, ← Finset.sum_mul, hv]
  · simp only [SpdzShare.mulConst, ← Finset.sum_mul, hm]
    ring

lemma sharesOf_addConst {n : ℕ} (hn : 0 < n) {alpha : Fin n → F}
    {s : Fin n → SpdzShare F} {x : F} (c : F) (hs : SharesOf alpha s x) :
    SharesOf alpha (fun i => (s i).addConst c) (x + c) := by
  obtain ⟨hw, hv, hm⟩ := hs
  refine ⟨fun i => ⟨(hw i).1, (hw i).2⟩, ?_, ?_⟩
  · have : ∀ i : Fin n, ((s i).addConst c).value
        = (s i).value + (if (i : ℕ) = 0 then c else 0) := by
      intro i
      simp only [SpdzShare.addConst, (hw i).2]
      split <;> simp
    simp only [this, Finset.sum_add_distrib, hv, sum_ite_partyZero hn]
  · have : ∀ i : Fin n, ((s i).addConst c).mac = (s i).mac + c * alpha i := by
      intro i
      simp only [SpdzShare.addConst, (hw i).1]
    simp only [this, Finset.sum_add_distrib, hm, ← Finset.mul_sum]
    ring

lemma sharesOf_subConst {n : ℕ} (hn : 0 < n) {alpha : Fin n → F}
    {s : Fin n → SpdzShare F} {x : F} (c : F) (hs : SharesOf alpha s x) :
    SharesOf alpha (fun i => (s i).subConst c) (x - c) := by
  obtain ⟨hw, hv, hm⟩ := hs
  refine ⟨fun i => ⟨(hw i).1, (hw i).2⟩, ?_, ?_⟩
  · have : ∀ i : Fin n, ((s i).subConst c).value
        = (s i).value - (if (i : ℕ) = 0 then c else 0) := by
      intro i
      simp only [SpdzShare.subConst, (hw i).2]
      split <;> simp
    simp only [this, Finset.sum_sub_distrib, hv, sum_ite_partyZero hn]
  · have : ∀ i : Fin n, ((s i).subConst c).mac = (s i).mac - c * alpha i := by
      intro i
      simp only [SpdzShare.subConst, (hw i).1]
    simp only [this, Finset.sum_sub_distrib, hm, ← Finset.mul_sum]
    ring

lemma sharesOf_sharePlain {n : ℕ} (hn : 0 < n) (alpha : Fin n → F) (c : F) :
    SharesOf alpha (fun i => SpdzShare.sharePlain c (alpha i) (i : ℕ)) c := by
  refine ⟨fun i => ⟨rfl, rfl⟩, ?_, ?_⟩
  · simp only [SpdzShare.sharePlain, sum_ite_partyZero hn]
  · simp only [SpdzShare.sharePlain]
    rw [Finset.sum_mul]
    exact Finset.sum_congr rfl fun i _ => mul_comm _ _

/-- C2. Every strictly local share operation of `share.rs` — addition and
subtraction of two shares, negation, multiplication by a public field
element, addition/subtraction of a public constant — together with the
public-constant embedding `share_plain` of `fake_dealer.rs`, preserves the
cross-party invariant: the per-party values sum to the secret and the
per-party MACs sum to `alpha * secret`, where the privately held `alpha i`
sum to the global MAC key `alpha`. -/
theorem spdz_local_ops_preserve_invariant {n : ℕ} (hn : 0 < n)
    (alpha : Fin n → F) (s t : Fin n → SpdzShare F) (x y c : F)
    (hs : SharesOf alpha s x) (ht : SharesOf alpha t y) :
    SharesOf alpha (fun i => (s i).add (t i)) (x + y) ∧
    SharesOf alpha (fun i => (s i).sub (t i)) (x - y) ∧
    SharesOf alpha (fun i => (s i).neg) (-x) ∧
    SharesOf alpha (fun i => (s i).mulConst c) (x * c) ∧
    SharesOf alpha (fun i => (s i).addConst c) (x + c) ∧
    SharesOf alpha (fun i => (s i).subConst c) (x - c) ∧
    SharesOf alpha (fun i => SpdzShare.sharePlain c (alpha i) (i : ℕ)) c :=
  ⟨sharesOf_add hs ht, sharesOf_sub hs ht, sharesOf_neg hs,
    sharesOf_mulConst c hs, sharesOf_addConst hn c hs,
    sharesOf_subConst hn c hs, sharesOf_sharePlain hn alpha c⟩

/-- Witness for C2 at a concrete two-party instance over `ZMod 5`. -/
theorem spdz_local_ops_preserve_invariant_witness :
    (0 < 2 ∧
      SharesOf (F := ZMod 5) ![1, 2] ![⟨1, 2, 1, 0⟩, ⟨2, 2, 2, 1⟩] 3 ∧
      SharesOf (F := ZMod 5) ![1, 2] ![⟨4, 1, 1, 0⟩, ⟨2, 2, 2, 1⟩] 1) ∧
    (SharesOf (F := ZMod 5) ![1, 2]
        (fun i => ((![⟨1, 2, 1, 0⟩, ⟨2, 2, 2, 1⟩] : Fin 2 → SpdzShare (ZMod 5)) i).add
          (![⟨4, 1, 1, 0⟩, ⟨2, 2, 2, 1⟩] i)) (3 + 1) ∧
      SharesOf (F := ZMod 5) ![1, 2]
        (fun i => ((![⟨1, 2, 1, 0⟩, ⟨2, 2, 2, 1⟩] : Fin 2 → SpdzShare (ZMod 5)) i).sub
          (![⟨4, 1, 1, 0⟩, ⟨2, 2, 2, 1⟩] i)) (3 - 1) ∧
      SharesOf (F := ZMod 5) ![1, 2]
        (fun i => ((![⟨1, 2, 1, 0⟩, ⟨2, 2, 2, 1⟩] : Fin 2 → SpdzShare (ZMod 5)) i).neg) (-3) ∧
      SharesOf (F := ZMod 5) ![1, 2]
        (fun i => ((![⟨1, 2, 1, 0⟩, ⟨2, 2, 2, 1⟩] : Fin 2 → SpdzShare (ZMod 5)) i).mulConst 2)
        (3 * 2) ∧
      SharesOf (F := ZMod 5) ![1, 2]
        (fun i => ((![⟨1, 2, 1, 0⟩, ⟨2, 2, 2, 1⟩] : Fin 2 → SpdzShare (ZMod 5)) i).addConst 2)
        (3 + 2) ∧
      SharesOf (F := ZMod 5) ![1, 2]
        (fun i => ((![⟨1, 2, 1, 0⟩, ⟨2, 2, 2, 1⟩] : Fin 2 → SpdzShare (ZMod 5)) i).subConst 2)
        (3 - 2) ∧
      SharesOf (F := ZMod 5) ![1, 2]
        (fun i => SpdzShare.sharePlain (2 : ZMod 5) (![1, 2] i) (i : ℕ)) 2) :=
  ⟨⟨by decide, by decide, by decide⟩,
    spdz_local_ops_preserve_invariant (by decide) ![1, 2]
      ![⟨1, 2, 1, 0⟩, ⟨2, 2, 2, 1⟩] ![⟨4, 1, 1, 0⟩, ⟨2, 2, 2, 1⟩] 3 1 2
      (by decide) (by decide)⟩

/-- Beaver multiplication, `mul` from `src/mpc/src/circuits/basic.rs`
(lines 19-23), expressed per party over a SPDZ sharing: pull a Beaver
triple `(a, b, c)`, open `e = x - a` and `d = y - b` (the opened value of a
sharing is the sum of the per-party values), and locally compute
`c + b * e + a * d + plain(e * d)`. -/
def beaverMul {n : ℕ} (alpha : Fin n → F) (x y a b c : Fin n → SpdzShare F) :
    Fin n → SpdzShare F :=
  let e := openValue (fun i => (x i).sub (a i))
  let d := openValue (fun i => (y i).sub (b i))
  fun i =>
    (((c i).add ((b i).mulConst e)).add ((a i).mulConst d)).add
      (SpdzShare.sharePlain (e * d) (alpha i) (i : ℕ))

/-- C1. Beaver multiplication: for sharings `x` and `y` of any two secrets
and a dealer triple `(a, b, c)` whose opened values satisfy `c = a * b`,
the share returned by `mul` opens to the product of the secrets. -/
theorem mul_opens_to_product {n : ℕ} (hn : 0 < n) (alpha : Fin n → F)
    (x y a b c : Fin n → SpdzShare F)
    (htriple : openValue c = openValue a * openValue b) :
    openValue (beaverMul alpha x y a b c) = openValue x * openValue y := by
  unfold beaverMul openValue at *
  simp only [SpdzShare.add, SpdzShare.sub, SpdzShare.mulConst,
    SpdzShare.sharePlain, Finset.sum_add_distrib, Finset.sum_sub_distrib,
    ← Finset.sum_mul, sum_ite_partyZero hn, htriple]
  ring

/-- Witness for C1 at a concrete single-party instance over `ZMod 5`:
`x` opens to 4, `y` opens to 2, the triple is `(2, 3, 6 = 1 mod 5)`. -/
theorem mul_opens_to_product_witness :
    (0 < 1 ∧
      openValue (F := ZMod 5) ![⟨1, 0, 0, 0⟩]
        = openValue (F := ZMod 5) ![⟨2, 0, 0, 0⟩] * openValue (F := ZMod 5) ![⟨3, 0, 0, 0⟩]) ∧
    openValue
        (beaverMul (F := ZMod 5) ![0] ![⟨4, 0, 0, 0⟩] ![⟨2, 0, 0, 0⟩]
          ![⟨2, 0, 0, 0⟩] ![⟨3, 0, 0, 0⟩] ![⟨1, 0, 0, 0⟩])
      = openValue (F := ZMod 5) ![⟨4, 0, 0, 0⟩] * openValue (F := ZMod 5) ![⟨2, 0, 0, 0⟩] :=
  ⟨⟨by decide, by decide⟩,
    mul_opens_to_product (by decide) ![0] ![⟨4, 0, 0, 0⟩] ![⟨2, 0, 0, 0⟩]
      ![⟨2, 0, 0, 0⟩] ![⟨3, 0, 0, 0⟩] ![⟨1, 0, 0, 0⟩] (by decide)⟩

/-! ### Powers of two (src/mpc/src/fields.rs)

`fields.rs` preloads tables of `2^k` and of their multiplicative inverses
(computed with `invert()`) for `0 ≤ k ≤ SAFE_BITS`. -/

/-- `MpcField::power_of_two` (fields.rs): the field element `2^k`. -/
def powerOfTwo (p k : ℕ) : ZMod p := 2 ^ k

/-- `MpcField::power_of_two_inverse` (fields.rs): the preloaded inverse of
`2^k`. -/
def powerOfTwoInverse (p k : ℕ) : ZMod p := (2 ^ k)⁻¹

/-! ### fold_tree (src/mpc/src/circuits/sequences.rs) -/

/-- One reduction pass of `fold_tree`: `batch_pairs` groups the list into
consecutive pairs plus a possible leftover single element, pairs are
combined and the leftover is kept unchanged. -/
def foldTreePass {α : Type} (f : α → α → α) : List α → List α
  | a :: b :: rest => f a b :: foldTreePass f rest
  | l => l

/-- The `while elems.len() > 1` loop of `fold_tree`, with explicit fuel;
each pass halves the length (rounding up), so `l.length` passes always
suffice (see `foldTreeLoop_length_le_one`). -/
def foldTreeLoop {α : Type} (f : α → α → α) : ℕ → List α → List α
  | 0, l => l
  | fuel + 1, l =>
      if l.length ≤ 1 then l else foldTreeLoop f fuel (foldTreePass f l)

/-- `fold_tree` from `src/mpc/src/circuits/sequences.rs`: aggregate a list by
combining distinct consecutive pairs in binary-tree fashion; an empty list
yields the default element. -/
def foldTree {α : Type} (f : α → α → α) (dflt : α) (l : List α) : α :=
  (foldTreeLoop f l.length l).headD dflt

lemma foldTreePass_length {α : Type} (f : α → α → α) :
    ∀ l : List α, (foldTreePass f l).length = (l.length + 1) / 2
  | [] => by simp [foldTreePass]
  | [_] => by simp [foldTreePass]
  | _ :: _ :: rest => by
      simp only [foldTreePass, List.length_cons, foldTreePass_length f rest]
      omega

/-! ### bitwise_compare (src/mpc/src/circuits/bitwise.rs) -/

/-- The per-bit base cases of `bitwise_compare` (bitwise.rs lines 23-31):
position `i` with `lhs_bit = (lhs >> i) & 1` maps a bit share `r` to
`(-r, r)` when `lhs_bit = 0` and to `(1 - r, 1 - r)` otherwise (where
`1 - r` is `rhs_bit.not(ctx)`).  The `enumerate` index is embedded by
shifting `lhs` right once per processed element. -/
def bitwiseCompareBase (p : ℕ) : ℕ → List (ZMod p) → List (ZMod p × ZMod p)
  | _, [] => []
  | lhs, r :: rest =>
      (if lhs &&& 1 = 0 then (-r, r) else (1 - r, 1 - r))
        :: bitwiseCompareBase p (lhs >>> 1) rest

/-- The combining closure of the `bitwise_compare` fold (bitwise.rs lines
37-40): `a = lhs.0 * rhs.1`, `b = lhs.1 * rhs.1`, result
`(lhs.0 + rhs.0 - a, lhs.1 + rhs.1 - b)`. -/
def combinePairs {F : Type} [CommRing F] (x y : F × F) : F × F :=
  (x.1 + y.1 - x.1 * y.2, x.2 + y.2 - x.2 * y.2)

/-- `bitwise_compare` from `src/mpc/src/circuits/bitwise.rs` (lines 9-49),
at the level of opened values: map the bits to `(cmp, neq)` pairs, fold them
in a binary tree, and convert the root to the two indicator outputs with
`scale = power_of_two_inverse(1)`. -/
def bitwiseCompare (p : ℕ) (lhs : ℕ) (rhs : List (ZMod p)) :
    ZMod p × ZMod p :=
  let base := bitwiseCompareBase p lhs rhs
  let root := foldTree combinePairs (0, 0) base
  ((root.2 - root.1) * powerOfTwoInverse p 1,
   (root.2 + root.1) * powerOfTwoInverse p 1)

/-- Embedding of a bit share's opened value. -/
def boolToF (p : ℕ) (b : Bool) : ZMod p := if b then 1 else 0

/-- Value of a little-endian list of bits (bit `i` is the `2^i` digit). -/
def natFromBits : List Bool → ℕ
  | [] => 0
  | b :: rest => (if b then 1 else 0) + 2 * natFromBits rest

/-! Proof infrastructure for `bitwise_compare`: every node of the fold is
abstracted by the contiguous segment of bit positions it covers together
with the values of the two compared operands on that segment. -/

/-- A contiguous segment of compared bits: `lv`/`rv` are the values of the
plaintext and hidden operands restricted to the segment, `w` its width. -/
structure CmpSeg where
  lv : ℕ
  rv : ℕ
  w : ℕ
deriving DecidableEq

/-- Both segment values fit in the segment width. -/
def CmpSeg.Ok (s : CmpSeg) : Prop := s.lv < 2 ^ s.w ∧ s.rv < 2 ^ s.w

/-- Concatenation of two adjacent segments; `b` holds the more significant
bits. -/
def CmpSeg.merge (a b : CmpSeg) : CmpSeg :=
  ⟨a.lv + 2 ^ a.w * b.lv, a.rv + 2 ^ a.w * b.rv, a.w + b.w⟩

/-- The empty segment. -/
def CmpSeg.zero : CmpSeg := ⟨0, 0, 0⟩

/-- The `(cmp, neq)` pair denoted by comparing `a` with `b`:
`cmp` is `-1`, `0` or `1` as `a < b`, `a = b`, `a > b`; `neq` flags
inequality.  This is the semantic invariant stated in the comment at the
top of `bitwise_compare`. -/
def cmpPair (p : ℕ) (a b : ℕ) : ZMod p × ZMod p :=
  (if a < b then -1 else if b < a then 1 else 0, if a = b then 0 else 1)

lemma CmpSeg.merge_zero (a : CmpSeg) : a.merge CmpSeg.zero = a := by
  simp [CmpSeg.merge, CmpSeg.zero]

lemma CmpSeg.merge_assoc (a b c : CmpSeg) :
    (a.merge b).merge c = a.merge (b.merge c) := by
  simp only [CmpSeg.merge, CmpSeg.mk.injEq]
  refine ⟨by ring, by ring, by ring⟩

lemma CmpSeg.merge_ok {a b : CmpSeg} (ha : a.Ok) (hb : b.Ok) :
    (a.merge b).Ok := by
  obtain ⟨ha1, ha2⟩ := ha
  obtain ⟨hb1, hb2⟩ := hb
  constructor
  · have h1 : a.lv + 2 ^ a.w * b.lv < 2 ^ a.w * (b.lv + 1) := by
      have e : 2 ^ a.w * (b.lv + 1) = 2 ^ a.w * b.lv + 2 ^ a.w := by ring
      omega
    have h2 : 2 ^ a.w * (b.lv + 1) ≤ 2 ^ a.w * 2 ^ b.w :=
      Nat.mul_le_mul_left _ hb1
    have h3 : (a.merge b).w = a.w + b.w := rfl
    calc (a.merge b).lv < 2 ^ a.w * (b.lv + 1) := h1
      _ ≤ 2 ^ a.w * 2 ^ b.w := h2
      _ = 2 ^ (a.merge b).w := by rw [h3, pow_add]
  · have h1 : a.rv + 2 ^ a.w * b.rv < 2 ^ a.w * (b.rv + 1) := by
      have e : 2 ^ a.w * (b.rv + 1) = 2 ^ a.w * b.rv + 2 ^ a.w := by ring
      omega
    have h2 : 2 ^ a.w * (b.rv + 1) ≤ 2 ^ a.w * 2 ^ b.w :=
      Nat.mul_le_mul_left _ hb2
    have h3 : (a.merge b).w = a.w + b.w := rfl
    calc (a.merge b).rv < 2 ^ a.w * (b.rv + 1) := h1
      _ ≤ 2 ^ a.w * 2 ^ b.w := h2
      _ = 2 ^ (a.merge b).w := by rw [h3, pow_add]

lemma merge_lt_left {a b : CmpSeg} (ha : a.Ok) (h : b.lv < b.rv) :
    (a.merge b).lv < (a.merge b).rv := by
  have h1 : a.lv + 2 ^ a.w * b.lv < 2 ^ a.w * (b.lv + 1) := by
    have e : 2 ^ a.w * (b.lv + 1) = 2 ^ a.w * b.lv + 2 ^ a.w := by ring
    have := ha.1
    omega
  have h2 : 2 ^ a.w * (b.lv + 1) ≤ 2 ^ a.w * b.rv :=
    Nat.mul_le_mul_left _ h
  have h3 : 2 ^ a.w * b.rv ≤ a.rv + 2 ^ a.w * b.rv := Nat.le_add_left _ _
  calc (a.merge b).lv < 2 ^ a.w * (b.lv + 1) := h1
    _ ≤ 2 ^ a.w * b.rv := h2
    _ ≤ (a.merge b).rv := h3

lemma merge_lt_right {a b : CmpSeg} (ha : a.Ok) (h : b.rv < b.lv) :
    (a.merge b).rv < (a.merge b).lv := by
  have h1 : a.rv + 2 ^ a.w * b.rv < 2 ^ a.w * (b.rv + 1) := by
    have e : 2 ^ a.w * (b.rv + 1) = 2 ^ a.w * b.rv + 2 ^ a.w := by ring
    have := ha.2
    omega
  have h2 : 2 ^ a.w * (b.rv + 1) ≤ 2 ^ a.w * b.lv :=
    Nat.mul_le_mul_left _ h
  have h3 : 2 ^ a.w * b.lv ≤ a.lv + 2 ^ a.w * b.lv := Nat.le_add_left _ _
  calc (a.merge b).rv < 2 ^ a.w * (b.rv + 1) := h1
    _ ≤ 2 ^ a.w * b.lv := h2
    _ ≤ (a.merge b).lv := h3

/-- Combining the `(cmp, neq)` pairs of two adjacent segments yields the
pair of the concatenated segment: if the high segment differs it decides,
otherwise the low segment does. -/
lemma combinePairs_cmpPair (p : ℕ) {a b : CmpSeg} (ha : a.Ok) (_hb : b.Ok) :
    combinePairs (cmpPair p a.lv a.rv) (cmpPair p b.lv b.rv)
      = cmpPair p (a.merge b).lv (a.merge b).rv := by
  rcases lt_trichotomy b.lv b.rv with h | h | h
  · have h1 := merge_lt_left ha h
    simp only [cmpPair, combinePairs, if_pos h, if_pos h1, if_neg h.ne,
      if_neg h1.ne]
    exact Prod.ext (by ring) (by ring)
  · have hb1 : ¬ b.lv < b.rv := by omega
    have hb2 : ¬ b.rv < b.lv := by omega
    have e1 : (a.merge b).lv < (a.merge b).rv ↔ a.lv < a.rv := by
      simp only [CmpSeg.merge, h]
      omega
    have e2 : (a.merge b).rv < (a.merge b).lv ↔ a.rv < a.lv := by
      simp only [CmpSeg.merge, h]
      omega
    have e3 : ((a.merge b).lv = (a.merge b).rv) ↔ (a.lv = a.rv) := by
      simp only [CmpSeg.merge, h]
      omega
    simp only [cmpPair, combinePairs, if_neg hb1, if_neg hb2, if_pos h]
    rcases lt_trichotomy a.lv a.rv with h' | h' | h'
    · simp only [if_pos h', if_pos (e1.mpr h'), if_neg h'.ne,
        if_neg (e3.not.mpr h'.ne)]
      exact Prod.ext (by ring) (by ring)
    · have ha1 : ¬ a.lv < a.rv := by omega
      have ha2 : ¬ a.rv < a.lv := by omega
      simp only [if_neg ha1, if_neg ha2, if_pos h', if_pos (e3.mpr h'),
        if_neg (e1.not.mpr ha1), if_neg (e2.not.mpr ha2)]
      exact Prod.ext (by ring) (by ring)
    · have ha1 : ¬ a.lv < a.rv := by omega
      have hne : a.lv ≠ a.rv := h'.ne'
      simp only [if_neg ha1, if_pos h', if_neg (e1.not.mpr ha1),
        if_pos (e2.mpr h'), if_neg hne, if_neg (e3.not.mpr hne)]
      exact Prod.ext (by ring) (by ring)
  · have h1 := merge_lt_right ha h
    have hb1 : ¬ b.lv < b.rv := by omega
    have hne : b.lv ≠ b.rv := h.ne'
    have hm1 : ¬ (a.merge b).lv < (a.merge b).rv := by omega
    have hne1 : (a.merge b).lv ≠ (a.merge b).rv := h1.ne'
    simp only [cmpPair, combinePairs, if_neg hb1, if_pos h,
      if_neg hne, if_neg hm1, if_pos h1, if_neg hne1]
    exact Prod.ext (by ring) (by ring)

/-- Total value of a list of segments (low-order segments first). -/
def totalSeg (segs : List CmpSeg) : CmpSeg :=
  segs.foldr CmpSeg.merge CmpSeg.zero

lemma foldTreePass_map_cmpPair (p : ℕ) :
    ∀ segs : List CmpSeg, (∀ s ∈ segs, s.Ok) →
      foldTreePass combinePairs (segs.map fun s => cmpPair p s.lv s.rv)
        = (foldTreePass CmpSeg.merge segs).map fun s => cmpPair p s.lv s.rv
  | [], _ => rfl
  | [_], _ => rfl
  | a :: b :: rest, h => by
      simp only [List.map_cons, foldTreePass]
      rw [combinePairs_cmpPair p (h a (by simp)) (h b (by simp)),
        foldTreePass_map_cmpPair p rest (fun s hs => h s (by simp [hs]))]

lemma foldTreePass_ok :
    ∀ segs : List CmpSeg, (∀ s ∈ segs, s.Ok) →
      ∀ s ∈ foldTreePass CmpSeg.merge segs, s.Ok
  | [], h => h
  | [a], h => h
  | a :: b :: rest, h => by
      intro s hs
      simp only [foldTreePass, List.mem_cons] at hs
      rcases hs with rfl | hs
      · exact CmpSeg.merge_ok (h a (by simp)) (h b (by simp))
      · exact foldTreePass_ok rest (fun u hu => h u (by simp [hu])) s hs

lemma foldTreePass_totalSeg :
    ∀ segs : List CmpSeg, totalSeg (foldTreePass CmpSeg.merge segs) = totalSeg segs
  | [] => rfl
  | [_] => rfl
  | a :: b :: rest => by
      simp only [foldTreePass, totalSeg, List.foldr_cons]
      rw [show List.foldr CmpSeg.merge CmpSeg.zero (foldTreePass CmpSeg.merge rest)
          = totalSeg (foldTreePass CmpSeg.merge rest) from rfl,
        foldTreePass_totalSeg rest]
      exact CmpSeg.merge_assoc a b _

lemma foldTreeLoop_cmpPair (p : ℕ) :
    ∀ (fuel : ℕ) (segs : List CmpSeg), segs ≠ [] → segs.length ≤ fuel →
      (∀ s ∈ segs, s.Ok) →
      foldTreeLoop combinePairs fuel (segs.map fun s => cmpPair p s.lv s.rv)
        = [cmpPair p (totalSeg segs).lv (totalSeg segs).rv]
  | 0, segs, hne, hlen, _ => by
      cases segs with
      | nil => exact absurd rfl hne
      | cons a rest => simp at hlen
  | fuel + 1, segs, hne, hlen, hok => by
      rw [foldTreeLoop]
      by_cases hshort : (segs.map fun s => cmpPair p s.lv s.rv).length ≤ 1
      · rw [if_pos hshort]
        match segs, hne, hshort with
        | [s], _, _ =>
            simp only [List.map_cons, List.map_nil, totalSeg, List.foldr_cons,
              List.foldr_nil, CmpSeg.merge_zero]
      · rw [if_neg hshort]
        have hlen2 : 2 ≤ segs.length := by
          simp only [List.length_map] at hshort
          omega
        rw [foldTreePass_map_cmpPair p segs hok,
          foldTreeLoop_cmpPair p fuel (foldTreePass CmpSeg.merge segs)
            (by
              have := foldTreePass_length CmpSeg.merge segs
              intro hnil
              rw [hnil] at this
              simp at this
              omega)
            (by
              have := foldTreePass_length CmpSeg.merge segs
              omega)
            (foldTreePass_ok segs hok),
          foldTreePass_totalSeg segs]

/-- Segment abstraction of the base cases of `bitwise_compare`: position `i`
covers the single bit `i` of each operand. -/
def cmpSegsOf : ℕ → List Bool → List CmpSeg
  | _, [] => []
  | lhs, b :: rest =>
      ⟨lhs &&& 1, if b then 1 else 0, 1⟩ :: cmpSegsOf (lhs >>> 1) rest

lemma cmpSegsOf_length : ∀ (lhs : ℕ) (bits : List Bool),
    (cmpSegsOf lhs bits).length = bits.length
  | _, [] => rfl
  | lhs, _ :: rest => by
      simp only [cmpSegsOf, List.length_cons, cmpSegsOf_length (lhs >>> 1) rest]

lemma cmpSegsOf_ok : ∀ (lhs : ℕ) (bits : List Bool),
    ∀ s ∈ cmpSegsOf lhs bits, s.Ok
  | _, [], _, hs => by simp [cmpSegsOf] at hs
  | lhs, b :: rest, s, hs => by
      simp only [cmpSegsOf, List.mem_cons] at hs
      rcases hs with rfl | hs
      · refine ⟨?_, ?_⟩
        · have := Nat.and_one_is_mod lhs
          have := Nat.mod_lt lhs (show 0 < 2 by omega)
          simp only [pow_one]
          omega
        · cases b <;> simp
      · exact cmpSegsOf_ok (lhs >>> 1) rest s hs

lemma bitwiseCompareBase_eq_map (p : ℕ) : ∀ (lhs : ℕ) (bits : List Bool),
    bitwiseCompareBase p lhs (bits.map (boolToF p))
      = (cmpSegsOf lhs bits).map fun s => cmpPair p s.lv s.rv
  | _, [] => rfl
  | lhs, b :: rest => by
      simp only [List.map_cons, bitwiseCompareBase, cmpSegsOf]
      rw [bitwiseCompareBase_eq_map p (lhs >>> 1) rest]
      congr 1
      have hand : lhs &&& 1 = lhs % 2 := Nat.and_one_is_mod lhs
      have hcase : lhs % 2 = 0 ∨ lhs % 2 = 1 := Nat.mod_two_eq_zero_or_one lhs
      rcases hcase with hc | hc <;> cases b <;>
        simp [boolToF, cmpPair, hand, hc]

lemma cmpSegsOf_totalSeg : ∀ (lhs : ℕ) (bits : List Bool),
    totalSeg (cmpSegsOf lhs bits)
      = ⟨lhs % 2 ^ bits.length, natFromBits bits, bits.length⟩
  | lhs, [] => by
      simp [totalSeg, cmpSegsOf, natFromBits, CmpSeg.zero, Nat.mod_one]
  | lhs, b :: rest => by
      simp only [cmpSegsOf, totalSeg, List.foldr_cons]
      rw [show List.foldr CmpSeg.merge CmpSeg.zero (cmpSegsOf (lhs >>> 1) rest)
          = totalSeg (cmpSegsOf (lhs >>> 1) rest) from rfl,
        cmpSegsOf_totalSeg (lhs >>> 1) rest]
      simp only [CmpSeg.merge, natFromBits, List.length_cons, CmpSeg.mk.injEq]
      refine ⟨?_, by cases b <;> simp [pow_one], by omega⟩
      have hshift : lhs >>> 1 = lhs / 2 := Nat.shiftRight_eq_div_pow lhs 1
      have hand : lhs &&& 1 = lhs % 2 := Nat.and_one_is_mod lhs
      rw [hand, hshift, pow_one]
      have key : lhs % 2 ^ (rest.length + 1) = lhs % 2 + 2 * (lhs / 2 % 2 ^ rest.length) := by
        have h1 : (2 * (lhs / 2)) % (2 * 2 ^ rest.length)
            = 2 * (lhs / 2 % 2 ^ rest.length) := Nat.mul_mod_mul_left 2 _ _
        have h2 : 2 ^ (rest.length + 1) = 2 * 2 ^ rest.length := by ring
        have h3 : lhs = 2 * (lhs / 2) + lhs % 2 := (Nat.div_add_mod lhs 2).symm
        have h4 : lhs % 2 < 2 := Nat.mod_lt lhs (by omega)
        have h5 : lhs / 2 % 2 ^ rest.length < 2 ^ rest.length :=
          Nat.mod_lt _ (Nat.pos_pow_of_pos _ (by omega))
        conv_lhs => rw [h3]
        rw [h2, Nat.add_mod, h1]
        have h6 : lhs % 2 % (2 * 2 ^ rest.length) = lhs % 2 :=
          Nat.mod_eq_of_lt (by
            have hpos : 0 < 2 ^ rest.length := Nat.pos_pow_of_pos _ (by omega)
            omega)
        rw [h6]
        rw [Nat.mod_eq_of_lt (by omega)]
        omega
      omega

lemma two_mul_inv_two (p : ℕ) [Fact p.Prime] (hp : 2 < p) :
    (2 : ZMod p) * (2 : ZMod p)⁻¹ = 1 := by
  apply ZMod.mul_inv_of_unit
  have h2 : ((2 : ℕ) : ZMod p) ≠ 0 := by
    rw [Ne, ZMod.natCast_zmod_eq_zero_iff_dvd]
    intro hdvd
    have := Nat.le_of_dvd (by omega) hdvd
    omega
  have hcast : ((2 : ℕ) : ZMod p) = (2 : ZMod p) := by push_cast; rfl
  rw [hcast] at h2
  exact isUnit_iff_ne_zero.mpr h2

/-- Correctness of `bitwise_compare` at the level of opened values: for a
hidden integer given by `bits` (bit `i` is the `2^i` digit), the circuit
outputs the indicator bits of `lhs % 2^k < R` and `lhs % 2^k > R`, where
`k` is the number of hidden bits and `R` their value — the circuit inspects
only the `k` low bits of `lhs`. -/
lemma bitwiseCompare_correct (p : ℕ) [Fact p.Prime] (hp : 2 < p)
    (lhs : ℕ) (bits : List Bool) :
    bitwiseCompare p lhs (bits.map (boolToF p))
      = (boolToF p (lhs % 2 ^ bits.length < natFromBits bits),
         boolToF p (natFromBits bits < lhs % 2 ^ bits.length)) := by
  by_cases hbits : bits = []
  · subst hbits
    simp [bitwiseCompare, bitwiseCompareBase, foldTree, foldTreeLoop,
      natFromBits, boolToF, Nat.mod_one]
  · have hne : cmpSegsOf lhs bits ≠ [] := by
      intro h
      have hl := cmpSegsOf_length lhs bits
      rw [h] at hl
      exact hbits (List.eq_nil_of_length_eq_zero hl.symm)
    have hroot : foldTree combinePairs ((0 : ZMod p), (0 : ZMod p))
        (bitwiseCompareBase p lhs (bits.map (boolToF p)))
        = cmpPair p (lhs % 2 ^ bits.length) (natFromBits bits) := by
      rw [bitwiseCompareBase_eq_map]
      unfold foldTree
      rw [List.length_map,
        foldTreeLoop_cmpPair p (cmpSegsOf lhs bits).length (cmpSegsOf lhs bits)
          hne le_rfl (cmpSegsOf_ok lhs bits),
        cmpSegsOf_totalSeg lhs bits]
      rfl
    have hinv : (2 : ZMod p) * (2 : ZMod p)⁻¹ = 1 := two_mul_inv_two p hp
    simp only [bitwiseCompare, hroot, powerOfTwoInverse, pow_one]
    rcases lt_trichotomy (lhs % 2 ^ bits.length) (natFromBits bits)
      with h | h | h
    · simp only [cmpPair, if_pos h, if_neg h.ne, boolToF, decide_eq_true_eq,
        if_neg (not_lt_of_gt h)]
      refine Prod.ext ?_ ?_
      · show ((1 : ZMod p) - (-1)) * (2 : ZMod p)⁻¹ = 1
        have e : ((1 : ZMod p) - (-1)) = 2 := by ring
        rw [e, hinv]
      · show ((1 : ZMod p) + (-1)) * (2 : ZMod p)⁻¹ = 0
        have e : ((1 : ZMod p) + (-1)) = 0 := by ring
        rw [e, zero_mul]
    · have h1 : ¬ lhs % 2 ^ bits.length < natFromBits bits := by omega
      have h2 : ¬ natFromBits bits < lhs % 2 ^ bits.length := by omega
      simp only [cmpPair, if_neg h1, if_neg h2, if_pos h, boolToF,
        decide_eq_true_eq]
      refine Prod.ext ?_ ?_
      · show ((0 : ZMod p) - 0) * (2 : ZMod p)⁻¹ = 0
        rw [sub_zero, zero_mul]
      · show ((0 : ZMod p) + 0) * (2 : ZMod p)⁻¹ = 0
        rw [add_zero, zero_mul]
    · have h1 : ¬ lhs % 2 ^ bits.length < natFromBits bits := by omega
      have hne2 : lhs % 2 ^ bits.length ≠ natFromBits bits := by omega
      simp only [cmpPair, if_neg h1, if_pos h, if_neg hne2, boolToF,
        decide_eq_true_eq]
      refine Prod.ext ?_ ?_
      · show ((1 : ZMod p) - 1) * (2 : ZMod p)⁻¹ = 0
        rw [sub_self, zero_mul]
      · show ((1 : ZMod p) + 1) * (2 : ZMod p)⁻¹ = 1
        have e : ((1 : ZMod p) + 1) = 2 := by ring
        rw [e, hinv]

/-- C5 (amended).  For every plaintext `lhs` and every list of hidden bit
shares with values `bits` (bit `i` being the `2^i` digit of the hidden
integer `R`), `bitwise_compare` returns the pair of bit shares opening to
the indicators `[lhs mod 2^k < R]` and `[lhs mod 2^k > R]` where `k` is the
number of bits; in particular the claimed indicators `[lhs < R]`,
`[lhs > R]` are produced exactly when `lhs < 2^k`. -/
theorem bitwise_compare_opens_mod (p : ℕ) [Fact p.Prime] (hp : 2 < p)
    (lhs : ℕ) (bits : List Bool) :
    bitwiseCompare p lhs (bits.map (boolToF p))
      = (boolToF p (lhs % 2 ^ bits.length < natFromBits bits),
         boolToF p (natFromBits bits < lhs % 2 ^ bits.length)) :=
  bitwiseCompare_correct p hp lhs bits

/-- Witness for C5's amended theorem: `lhs = 6` against hidden bits
`[1, 1, 0]` (so `R = 3`): the outputs open to `(0, 1)`. -/
theorem bitwise_compare_opens_mod_witness :
    (Nat.Prime 5 ∧ 2 < 5) ∧
    bitwiseCompare 5 6 ([true, true, false].map (boolToF 5))
      = (boolToF 5 (6 % 2 ^ 3 < natFromBits [true, true, false]),
         boolToF 5 (natFromBits [true, true, false] < 6 % 2 ^ 3)) :=
  ⟨⟨by decide, by decide⟩,
    @bitwise_compare_opens_mod 5 ⟨by decide⟩ (by decide) 6 [true, true, false]⟩

/-- C5 counterexample: with `lhs = 2` and a single hidden bit (`R = 1`,
so `lhs > R`), the circuit outputs the pair opening to `(1, 0)` — not the
claimed indicators `([lhs < R], [lhs > R]) = (0, 1)` — because the code
inspects only bit `0` of `lhs` (`(lhs >> i) & 1` for `i` below the number
of hidden bits). -/
theorem bitwise_compare_counterexample :
    bitwiseCompare 5 2 [boolToF 5 true]
      ≠ (boolToF 5 (2 < natFromBits [true]),
         boolToF 5 (natFromBits [true] < 2)) := by
  have h2 : ((2 : ZMod 5))⁻¹ = 3 := ZMod.inv_eq_of_mul_eq_one 5 2 3 (by decide)
  simp only [bitwiseCompare, powerOfTwoInverse, pow_one, h2]
  decide

/-! ### Integer circuits (src/mpc/src/circuits/integer.rs) -/

/-- `bits_to_raw_share` (integer.rs lines 354-359): combine a sharing of bits
into a shared integer by folding the reversed bit list with
`acc.double() + x`. -/
def bitsToRawShare (p : ℕ) (bits : List (ZMod p)) : ZMod p :=
  bits.reverse.foldl (fun acc x => (acc + acc) + x) 0

/-- `random_bit_mask`, function PRandM (integer.rs lines 361-373), at the
level of opened values: the dealer supplies a uniform `SAFE_BITS - k` bit
integer `H` (`next_uint`) and `k` random bits `bits` (`BitShare::random`);
returns the mask `high * 2^k + low`, the low part and the low bits. -/
def randomBitMask (p k : ℕ) (H : ℕ) (bits : List Bool) :
    ZMod p × ZMod p × List (ZMod p) :=
  let lowBits := bits.map (boolToF p)
  let lowPart := bitsToRawShare p lowBits
  ((H : ZMod p) * powerOfTwo p k + lowPart, lowPart, lowBits)

/-- `mod_power_of_two` from `src/mpc/src/circuits/integer.rs` (lines
131-161), at the level of opened values; `x` is the opened value of the
input share and `H`, `bits` the dealer randomness of `random_bit_mask`.
The `panic!("Too large k.")` branch is embedded as an error.  `truncated()`
of the opened masked value keeps the 64 low bits of its canonical
representative, and for `k < 64` the code then reduces it mod `2^k`. -/
def modPowerOfTwo (p N k : ℕ) (x : ZMod p) (H : ℕ) (bits : List Bool) :
    Except String (ZMod p) :=
  if k > N then Except.error "Too large k."
  else
    let normalizedValue := x + powerOfTwo p N
    let mhelp := randomBitMask p k H bits
    let maskedValue := normalizedValue + mhelp.1
    let mv0 : ℕ := maskedValue.val % 2 ^ 64
    let mv : ℕ := if k < 64 then mv0 % 2 ^ k else mv0
    let cmpRes := bitwiseCompare p mv mhelp.2.2
    let correction := cmpRes.1 * powerOfTwo p k
    Except.ok ((mv : ZMod p) - mhelp.2.1 + correction)

/-- `div_power_of_two` (integer.rs lines 166-173): clamp `k` to
`min(k, N)` (the source shadows `k`), subtract `mod_power_of_two(k)` from
the input and multiply the difference by the preloaded inverse of `2^k`. -/
def divPowerOfTwo (p N k : ℕ) (x : ZMod p) (H : ℕ) (bits : List Bool) :
    Except String (ZMod p) :=
  let k := min k N
  (modPowerOfTwo p N k x H bits).map fun remainder =>
    (x - remainder) * powerOfTwoInverse p k

lemma natFromBits_lt : ∀ bits : List Bool, natFromBits bits < 2 ^ bits.length
  | [] => by simp [natFromBits]
  | b :: rest => by
      have := natFromBits_lt rest
      simp only [natFromBits, List.length_cons, pow_succ]
      cases b <;> simp <;> omega

lemma bitsToRawShare_eq (p : ℕ) : ∀ bits : List Bool,
    bitsToRawShare p (bits.map (boolToF p)) = ((natFromBits bits : ℕ) : ZMod p)
  | [] => by simp [bitsToRawShare, natFromBits]
  | b :: rest => by
      have ih := bitsToRawShare_eq p rest
      unfold bitsToRawShare at *
      rw [List.foldl_reverse] at *
      simp only [List.map_cons, List.foldr_cons, ih, natFromBits]
      cases b
      · simp [boolToF]
        ring
      · simp [boolToF]
        ring

/-- C10. For every `k > N`, `mod_power_of_two` panics with the message
"Too large k." instead of returning a result; under the documented
precondition `k ≤ N` the panic branch is unreachable (a result is always
produced). -/
theorem mod_power_of_two_panics_on_large_k (p N k : ℕ) (x : ZMod p)
    (H : ℕ) (bits : List Bool) (hk : N < k) :
    modPowerOfTwo p N k x H bits = Except.error "Too large k."
    ∧ ∀ k' ≤ N, ∃ r, modPowerOfTwo p N k' x H bits = Except.ok r := by
  constructor
  · rw [modPowerOfTwo, if_pos hk]
  · intro k' hk'
    rw [modPowerOfTwo]
    rw [if_neg (show ¬ N < k' by omega)]
    exact ⟨_, rfl⟩

/-- Witness for C10: `mod_power_of_two(4)` on `IntShare<3>` panics, while
every `k' ≤ 3` returns a value. -/
theorem mod_power_of_two_panics_on_large_k_witness :
    3 < 4 ∧
    (modPowerOfTwo 5 3 4 (0 : ZMod 5) 0 [] = Except.error "Too large k."
      ∧ ∀ k' ≤ 3, ∃ r, modPowerOfTwo 5 3 k' (0 : ZMod 5) 0 [] = Except.ok r) :=
  ⟨by decide, mod_power_of_two_panics_on_large_k 5 3 4 0 0 [] (by decide)⟩

/-- Core correctness of `mod_power_of_two` (Catrina-de Hoogh Mod2M) at the
level of opened values: under the field contract (`2^(SAFE_BITS+1) - 2`
fits in the field), the `IntShare` well-formedness bounds
(`2 ≤ N ≤ min(SAFE_BITS - 1, 64)`), `k ≤ N`, an input value
`v ∈ (-2^N, 2^N)` and dealer randomness in range, the circuit returns the
field embedding of the Euclidean remainder `v mod 2^k`. -/
lemma modPowerOfTwo_correct (p S N k : ℕ) [Fact p.Prime]
    (hfield : 2 ^ (S + 1) - 2 < p) (hN2 : 2 ≤ N) (hNS : N + 1 ≤ S)
    (hN64 : N ≤ 64) (hk : k ≤ N) (v : ℤ)
    (hv1 : -(2 ^ N : ℤ) < v) (hv2 : v < 2 ^ N)
    (H : ℕ) (hH : H < 2 ^ (S - k)) (bits : List Bool)
    (hbits : bits.length = k) :
    modPowerOfTwo p N k ((v : ZMod p)) H bits
      = Except.ok (((v % 2 ^ k : ℤ)) : ZMod p) := by
  have h16 : (2 : ℕ) ^ 4 ≤ 2 ^ (S + 1) := Nat.pow_le_pow_right (by omega) (by omega)
  have hp2 : 2 < p := by
    have : (2 : ℕ) ^ 4 = 16 := by norm_num
    omega
  -- the dealer's low bits and their value
  set L : ℕ := natFromBits bits with hLdef
  have hL : L < 2 ^ k := hbits ▸ natFromBits_lt bits
  -- the normalized input value as a natural number
  set vn : ℕ := (v + 2 ^ N).toNat with hvndef
  have hvnz : ((vn : ℤ)) = v + 2 ^ N := Int.toNat_of_nonneg (by omega)
  have hpowN : (2 : ℤ) ^ (N + 1) = 2 * 2 ^ N := by ring
  have hvn2 : vn < 2 ^ (N + 1) := by
    have h1 : ((vn : ℤ)) < 2 ^ (N + 1) := by rw [hvnz, hpowN]; omega
    have h2 : ((2 ^ (N + 1) : ℕ) : ℤ) = 2 ^ (N + 1) := by push_cast; ring
    omega
  have hvn1 : 1 ≤ vn := by
    have : (1 : ℤ) ≤ (vn : ℤ) := by rw [hvnz]; omega
    omega
  -- the opened masked value, as a natural number
  set M : ℕ := vn + (H * 2 ^ k + L) with hMdef
  have hpowS : 2 ^ (S - k) * 2 ^ k = 2 ^ S := by
    rw [← pow_add]
    congr 1
    omega
  have hMbound : M < p := by
    have hHB : H * 2 ^ k + 2 ^ k ≤ 2 ^ S := by
      have h1 : (H + 1) * 2 ^ k ≤ 2 ^ (S - k) * 2 ^ k :=
        Nat.mul_le_mul_right _ (by omega)
      have h2 : (H + 1) * 2 ^ k = H * 2 ^ k + 2 ^ k := by ring
      omega
    have h3 : 2 ^ (N + 1) ≤ 2 ^ S := Nat.pow_le_pow_right (by omega) (by omega)
    have h4 : 2 ^ (S + 1) = 2 * 2 ^ S := by ring
    have h5 : 1 ≤ 2 ^ k := Nat.one_le_two_pow
    omega
  -- the masked field element is the embedding of M
  have hMz : ((M : ℕ) : ℤ) = v + 2 ^ N + ((H : ℤ) * 2 ^ k + (L : ℤ)) := by
    rw [hMdef]
    push_cast
    omega
  have hmask : ((v : ZMod p) + powerOfTwo p N)
      + ((H : ZMod p) * powerOfTwo p k + bitsToRawShare p (bits.map (boolToF p)))
      = ((M : ℕ) : ZMod p) := by
    rw [bitsToRawShare_eq p bits, ← hLdef, powerOfTwo, powerOfTwo]
    have hMF : ((M : ℕ) : ZMod p) = (((M : ℕ) : ℤ) : ZMod p) := by
      push_cast
      ring
    rw [hMF, hMz]
    push_cast
    ring
  -- value of the opened masked element
  have hval : (((M : ℕ) : ZMod p)).val = M := ZMod.val_cast_of_lt hMbound
  -- the truncated-and-reduced opened value
  have hdvd : (2 : ℕ) ^ k ∣ 2 ^ 64 := pow_dvd_pow 2 (by omega)
  have hmv : (if k < 64 then (M % 2 ^ 64) % 2 ^ k else M % 2 ^ 64) = M % 2 ^ k := by
    by_cases h64 : k < 64
    · rw [if_pos h64, Nat.mod_mod_of_dvd M hdvd]
    · have hk64 : k = 64 := by omega
      rw [if_neg h64, hk64]
  -- the remainder of v
  set rN : ℕ := (v % (2 ^ k : ℤ)).toNat with hrdef
  have hkpos : (0 : ℤ) < 2 ^ k := by positivity
  have hrz : ((rN : ℤ)) = v % (2 ^ k : ℤ) :=
    Int.toNat_of_nonneg (Int.emod_nonneg v (by positivity))
  have hrlt : rN < 2 ^ k := by
    have h1 : v % (2 ^ k : ℤ) < 2 ^ k := Int.emod_lt_of_pos v hkpos
    have h2 : ((2 ^ k : ℕ) : ℤ) = 2 ^ k := by push_cast; ring
    omega
  -- M mod 2^k equals (rN + L) mod 2^k
  have hMmod : M % 2 ^ k = (rN + L) % 2 ^ k := by
    have h1 : M = (vn + L) + H * 2 ^ k := by omega
    have h2 : M % 2 ^ k = (vn + L) % 2 ^ k := by
      rw [h1, Nat.add_mul_mod_self_right]
    have h3 : (vn : ℤ) % 2 ^ k = v % (2 ^ k : ℤ) := by
      rw [hvnz]
      have hNk : (2 : ℤ) ^ N = 2 ^ k * 2 ^ (N - k) := by
        rw [← pow_add]
        congr 1
        omega
      rw [hNk, Int.add_mul_emod_self_left]
    have h4 : vn % 2 ^ k = rN := by
      have hcast : ((vn % 2 ^ k : ℕ) : ℤ) = (vn : ℤ) % (2 ^ k : ℤ) := by
        push_cast
        ring
      omega
    rw [h2, Nat.add_mod vn L, h4, Nat.add_mod rN L, Nat.mod_eq_of_lt hrlt]
  -- unfold the circuit
  rw [modPowerOfTwo, if_neg (by omega)]
  simp only [randomBitMask, hmask, hval, hmv]
  rw [bitwiseCompare_correct p hp2 (M % 2 ^ k) bits, hbits, ← hLdef]
  have hmvlt : M % 2 ^ k < 2 ^ k := Nat.mod_lt _ (Nat.pos_pow_of_pos _ (by omega))
  have hself : (M % 2 ^ k) % 2 ^ k = M % 2 ^ k := Nat.mod_eq_of_lt hmvlt
  rw [hself]
  congr 1
  rw [bitsToRawShare_eq p bits, ← hLdef]
  -- final case analysis on whether the masked remainder wrapped around
  by_cases hcase : rN + L < 2 ^ k
  · have hmveq : M % 2 ^ k = rN + L := by rw [hMmod, Nat.mod_eq_of_lt hcase]
    have hnotlt : ¬ rN + L < L := by omega
    rw [hmveq]
    simp only [boolToF, decide_eq_true_eq, if_neg hnotlt, zero_mul,
      add_zero]
    have : ((rN + L : ℕ) : ZMod p) = ((rN : ℕ) : ZMod p) + ((L : ℕ) : ZMod p) := by
      push_cast
      ring
    rw [this]
    have hfin : (((v % 2 ^ k : ℤ)) : ZMod p) = ((rN : ℕ) : ZMod p) := by
      rw [← hrz]
      push_cast
      ring
    rw [hfin]
    ring
  · have hge : 2 ^ k ≤ rN + L := by omega
    have hlt2 : rN + L < 2 ^ k + 2 ^ k := by omega
    have hmveq : M % 2 ^ k = rN + L - 2 ^ k := by
      rw [hMmod, Nat.mod_eq_sub_mod hge, Nat.mod_eq_of_lt (by omega)]
    have hislt : M % 2 ^ k < L := by omega
    rw [hmveq]
    simp only [boolToF, decide_eq_true_eq, if_pos (show rN + L - 2 ^ k < L by omega),
      one_mul]
    have hcast1 : ((rN + L - 2 ^ k : ℕ) : ZMod p)
        = ((rN : ℕ) : ZMod p) + ((L : ℕ) : ZMod p) - ((2 ^ k : ℕ) : ZMod p) := by
      have : ((rN + L - 2 ^ k : ℕ) : ℤ) = (rN : ℤ) + L - 2 ^ k := by
        push_cast [hge]
        ring
      have h2 : ((rN + L - 2 ^ k : ℕ) : ZMod p) = (((rN : ℤ) + L - 2 ^ k : ℤ) : ZMod p) := by
        rw [← this]
        push_cast
        ring
      rw [h2]
      push_cast
      ring
    rw [hcast1]
    have hfin : (((v % 2 ^ k : ℤ)) : ZMod p) = ((rN : ℕ) : ZMod p) := by
      rw [← hrz]
      push_cast
      ring
    rw [hfin, powerOfTwo]
    push_cast
    ring

/-- C3. For every `0 ≤ k ≤ N` and every `IntShare<N>` value
`v ∈ [-2^N+1, 2^N-1]`, `mod_power_of_two(ctx, k)` returns a share opening
to the Euclidean remainder `v mod 2^k`, which lies in `[0, 2^k)`, for every
choice of dealer randomness in range. -/
theorem mod_power_of_two_opens (p S N k : ℕ) [Fact p.Prime]
    (hfield : 2 ^ (S + 1) - 2 < p) (hN2 : 2 ≤ N) (hNS : N + 1 ≤ S)
    (hN64 : N ≤ 64) (hk : k ≤ N) (v : ℤ)
    (hv1 : -(2 ^ N : ℤ) < v) (hv2 : v < 2 ^ N)
    (H : ℕ) (hH : H < 2 ^ (S - k)) (bits : List Bool)
    (hbits : bits.length = k) :
    modPowerOfTwo p N k ((v : ZMod p)) H bits
      = Except.ok (((v % 2 ^ k : ℤ)) : ZMod p)
    ∧ 0 ≤ v % (2 ^ k : ℤ) ∧ v % (2 ^ k : ℤ) < 2 ^ k :=
  ⟨modPowerOfTwo_correct p S N k hfield hN2 hNS hN64 hk v hv1 hv2 H hH bits hbits,
    Int.emod_nonneg v (by positivity),
    Int.emod_lt_of_pos v (by positivity)⟩

/-- Witness for C3, the spec's concrete scenario: `mod_power_of_two(3)` of
`-17` in `IntShare<8>` (field contract `SAFE_BITS = 9`, `p = 1031`; dealer
randomness `H = 13`, low bits `[1, 0, 1]`) opens to `7`, the Euclidean
remainder. -/
theorem mod_power_of_two_opens_witness :
    (Nat.Prime 1031 ∧ 2 ^ 10 - 2 < 1031 ∧ ((-17 : ℤ) % (2 ^ 3 : ℤ) = 7)) ∧
    (modPowerOfTwo 1031 8 3 (((-17 : ℤ)) : ZMod 1031) 13 [true, false, true]
        = Except.ok ((((-17 : ℤ) % 2 ^ 3 : ℤ)) : ZMod 1031)
      ∧ 0 ≤ (-17 : ℤ) % (2 ^ 3 : ℤ) ∧ (-17 : ℤ) % (2 ^ 3 : ℤ) < 2 ^ 3) :=
  ⟨⟨by decide, by decide, by decide⟩,
    @mod_power_of_two_opens 1031 9 8 3 ⟨by decide⟩ (by decide) (by decide)
      (by decide) (by decide) (by decide) (-17) (by decide) (by decide)
      13 (by decide) [true, false, true] (by decide)⟩

lemma int_ediv_eq_neg_one {v b : ℤ} (hb : 0 < b) (h1 : -b < v) (h2 : v < 0) :
    v / b = -1 := by
  have e := Int.ediv_add_emod v b
  have r1 := Int.emod_nonneg v (ne_of_gt hb)
  have r2 := Int.emod_lt_of_pos v hb
  have hub : b * (v / b) < b * 0 := by rw [mul_zero]; omega
  have hlb : b * (-2 : ℤ) < b * (v / b) := by omega
  have hq1 : v / b < 0 := (mul_lt_mul_left hb).mp hub
  have hq2 : (-2 : ℤ) < v / b := (mul_lt_mul_left hb).mp hlb
  omega

lemma int_ediv_pow_eq_of_lt (v : ℤ) (N K : ℕ) (hNK : N ≤ K)
    (h1 : -(2 ^ N : ℤ) < v) (h2 : v < 2 ^ N) :
    v / (2 ^ N : ℤ) = v / (2 ^ K : ℤ) := by
  have hNle : (2 : ℤ) ^ N ≤ 2 ^ K := pow_le_pow_right₀ (by norm_num) hNK
  have hNpos : (0 : ℤ) < 2 ^ N := by positivity
  have hKpos : (0 : ℤ) < 2 ^ K := by positivity
  rcases le_or_lt 0 v with hv | hv
  · rw [Int.ediv_eq_zero_of_lt hv h2,
      Int.ediv_eq_zero_of_lt hv (lt_of_lt_of_le h2 hNle)]
  · rw [int_ediv_eq_neg_one hNpos h1 hv,
      int_ediv_eq_neg_one hKpos (by omega) hv]

/-- Core correctness of `div_power_of_two`: the arithmetic-shift law,
derived from `modPowerOfTwo_correct`. -/
lemma divPowerOfTwo_correct (p S N k : ℕ) [Fact p.Prime]
    (hfield : 2 ^ (S + 1) - 2 < p) (hN2 : 2 ≤ N) (hNS : N + 1 ≤ S)
    (hN64 : N ≤ 64) (v : ℤ)
    (hv1 : -(2 ^ N : ℤ) < v) (hv2 : v < 2 ^ N)
    (H : ℕ) (hH : H < 2 ^ (S - min k N)) (bits : List Bool)
    (hbits : bits.length = min k N) :
    divPowerOfTwo p N k ((v : ZMod p)) H bits
      = Except.ok (((v / 2 ^ k : ℤ)) : ZMod p) := by
  have h16 : (2 : ℕ) ^ 4 ≤ 2 ^ (S + 1) := Nat.pow_le_pow_right (by omega) (by omega)
  have hp2 : 2 < p := by
    have : (2 : ℕ) ^ 4 = 16 := by norm_num
    omega
  simp only [divPowerOfTwo]
  rw [modPowerOfTwo_correct p S N (min k N) hfield hN2 hNS hN64
    (min_le_right k N) v hv1 hv2 H hH bits hbits]
  simp only [Except.map]
  congr 1
  set q : ℤ := v / (2 ^ min k N : ℤ) with hqdef
  have hsub : ((v : ZMod p)) - (((v % 2 ^ min k N : ℤ)) : ZMod p)
      = (((2 ^ min k N * q : ℤ)) : ZMod p) := by
    have hz : (v : ℤ) - v % (2 ^ min k N : ℤ) = 2 ^ min k N * q := by
      have e := Int.ediv_add_emod v ((2 : ℤ) ^ min k N)
      rw [← hqdef] at e
      omega
    rw [← hz]
    push_cast
    ring
  rw [hsub]
  have hklt : (2 : ℕ) ^ min k N < p := by
    have h1 : (2 : ℕ) ^ min k N ≤ 2 ^ N :=
      Nat.pow_le_pow_right (by omega) (min_le_right k N)
    have h2 : (2 : ℕ) ^ N ≤ 2 ^ S := Nat.pow_le_pow_right (by omega) (by omega)
    have h3 : 1 ≤ (2 : ℕ) ^ S := Nat.one_le_two_pow
    have h4 : (2 : ℕ) ^ (S + 1) = 2 * 2 ^ S := by ring
    omega
  have h2k : ((2 : ZMod p)) ^ min k N ≠ 0 := by
    have hne : ((2 ^ min k N : ℕ) : ZMod p) ≠ 0 := by
      rw [Ne, ZMod.natCast_zmod_eq_zero_iff_dvd]
      intro hdvd
      have := Nat.le_of_dvd (Nat.pos_pow_of_pos _ (by omega)) hdvd
      omega
    have hc : ((2 ^ min k N : ℕ) : ZMod p) = (2 : ZMod p) ^ min k N := by
      push_cast
      ring
    rw [hc] at hne
    exact hne
  have hcancel : ((2 : ZMod p) ^ min k N) * ((2 : ZMod p) ^ min k N)⁻¹ = 1 :=
    ZMod.mul_inv_of_unit _ (isUnit_iff_ne_zero.mpr h2k)
  have hdiv : q = v / (2 ^ k : ℤ) := by
    rcases le_or_lt k N with h | h
    · rw [hqdef, min_eq_left h]
    · rw [hqdef, min_eq_right (le_of_lt h)]
      exact int_ediv_pow_eq_of_lt v N k (le_of_lt h) hv1 hv2
  rw [powerOfTwoInverse]
  push_cast
  rw [show ((2 : ZMod p) ^ min k N * (q : ZMod p)) * ((2 : ZMod p) ^ min k N)⁻¹
      = (q : ZMod p) * (((2 : ZMod p) ^ min k N) * ((2 : ZMod p) ^ min k N)⁻¹)
    from by ring, hcancel, mul_one, hdiv]

/-- C4. For every `k ≥ 0` and every `IntShare<N>` value
`v ∈ [-2^N+1, 2^N-1]`, `div_power_of_two(ctx, k)` returns a share opening
to the arithmetic shift `⌊v / 2^k⌋`; it is computed by subtracting
`mod_power_of_two(min(k, N))` from the input and multiplying the
difference by the preloaded inverse of `2^(min(k, N))` (the source shadows
`k` with `min(k, N)` before both uses). -/
theorem div_power_of_two_opens (p S N k : ℕ) [Fact p.Prime]
    (hfield : 2 ^ (S + 1) - 2 < p) (hN2 : 2 ≤ N) (hNS : N + 1 ≤ S)
    (hN64 : N ≤ 64) (v : ℤ)
    (hv1 : -(2 ^ N : ℤ) < v) (hv2 : v < 2 ^ N)
    (H : ℕ) (hH : H < 2 ^ (S - min k N)) (bits : List Bool)
    (hbits : bits.length = min k N) :
    divPowerOfTwo p N k ((v : ZMod p)) H bits
      = Except.ok (((v / 2 ^ k : ℤ)) : ZMod p) :=
  divPowerOfTwo_correct p S N k hfield hN2 hNS hN64 v hv1 hv2 H hH bits hbits

/-- Witness for C4: `div_power_of_two(10)` of `-17` in `IntShare<8>`
(`k > N`, so the clamp to `N = 8` is exercised) opens to
`⌊-17 / 1024⌋ = -1`. -/
theorem div_power_of_two_opens_witness :
    (Nat.Prime 1031 ∧ 2 ^ 10 - 2 < 1031 ∧ ((-17 : ℤ) / 2 ^ 10 = -1)) ∧
    divPowerOfTwo 1031 8 10 (((-17 : ℤ)) : ZMod 1031) 1 (List.replicate 8 false)
      = Except.ok ((((-17 : ℤ) / 2 ^ 10 : ℤ)) : ZMod 1031) :=
  ⟨⟨by decide, by decide, by decide⟩,
    @div_power_of_two_opens 1031 9 8 10 ⟨by decide⟩ (by decide) (by decide)
      (by decide) (by decide) (-17) (by decide) (by decide) 1 (by decide)
      (List.replicate 8 false) (by decide)⟩

/-! ### SPDZ wire messages and errors (src/mpc/src/spdz/engine.rs) -/

/-- `SpdzMessage` (engine.rs lines 27-34); digests and salts are abstracted
as natural numbers. -/
inductive SpdzMessage (F : Type) where
  | maskedInputs (vals : List F)
  | sharesExchange (vals : List F)
  | shareSumExchange (vals : List F)
  | stateHashCheck (hash : ℕ)
  | commitment (hash : ℕ)
  | decommitment (val : F) (salt : ℕ)
deriving DecidableEq

/-- `SpdzError` (engine.rs lines 38-45). -/
inductive SpdzError where
  | transport
  | unexpectedMessage (id : ℕ)
  | incorrectNumberOfValues (id : ℕ)
  | commitmentHashMismatch (id : ℕ)
  | stateHashMismatch
  | macCheckFailed
deriving DecidableEq

instance {e a : Type} [DecidableEq e] [DecidableEq a] :
    DecidableEq (Except e a) := fun x y =>
  match x, y with
  | Except.error u, Except.error w =>
      if h : u = w then Decidable.isTrue (by rw [h])
      else Decidable.isFalse (fun hc => h (by injection hc))
  | Except.ok u, Except.ok w =>
      if h : u = w then Decidable.isTrue (by rw [h])
      else Decidable.isFalse (fun hc => h (by injection hc))
  | Except.error _, Except.ok _ =>
      Decidable.isFalse (fun hc => Except.noConfusion hc)
  | Except.ok _, Except.error _ =>
      Decidable.isFalse (fun hc => Except.noConfusion hc)

/-- `BATCH_CHECK_THRESHOLD` (engine.rs line 17). -/
def batchCheckThreshold : ℕ := 20000

/-! ### Batch opening (engine.rs, `process_openings_unchecked`, lines
178-228) -/

/-- The coordinator's receive loop (engine.rs lines 186-197): each peer
message must be a `SharesExchange` of exactly `count` values, which are
added column-wise onto the coordinator's own value vector; a wrong length
fails with `IncorrectNumberOfValues`, any other message with
`UnexpectedMessage`. -/
def accumShares {F : Type} [CommRing F] (count : ℕ) :
    List F → List (ℕ × SpdzMessage F) → Except SpdzError (List F)
  | values, [] => Except.ok values
  | values, (otherId, SpdzMessage.sharesExchange parts) :: rest =>
      if parts.length ≠ count then
        Except.error (SpdzError.incorrectNumberOfValues otherId)
      else accumShares count (values.zipWith (· + ·) parts) rest
  | _, (otherId, _) :: _ => Except.error (SpdzError.unexpectedMessage otherId)

/-- `process_openings_unchecked` (engine.rs lines 178-228), for one party:
party 0 receives every peer's `SharesExchange` and sums column-wise (then
broadcasts the sums); any other party sends its values to party 0 and
receives back a `ShareSumExchange`, length-checked.  Each returned
plaintext is paired with the MAC share of the originating request and
appended to the opened-values buffer; the returned flag records whether the
buffer reached `BATCH_CHECK_THRESHOLD`, which makes the engine run
`check_integrity` (draining the buffer) before returning. -/
def processOpeningsUnchecked {F : Type} [CommRing F] (partyId : ℕ)
    (requests : List (SpdzShare F)) (peerMsgs : List (ℕ × SpdzMessage F))
    (coordMsg : SpdzMessage F) (openedValues : List (F × F)) :
    Except SpdzError (List F × List (F × F) × Bool) :=
  let values := requests.map SpdzShare.value
  let valuesCount := values.length
  let computed : Except SpdzError (List F) :=
    if partyId = 0 then accumShares valuesCount values peerMsgs
    else
      match coordMsg with
      | SpdzMessage.shareSumExchange sums =>
          if sums.length ≠ valuesCount then
            Except.error (SpdzError.incorrectNumberOfValues 0)
          else Except.ok sums
      | _ => Except.error (SpdzError.unexpectedMessage 0)
  computed.map fun vals =>
    let newOpened := openedValues ++ vals.zip (requests.map SpdzShare.mac)
    (vals, newOpened, decide (newOpened.length ≥ batchCheckThreshold))

/-- Column `j` of the peers' `SharesExchange` payloads (proof-side helper
describing the coordinator's column-wise accumulation). -/
def sumColumn {F : Type} [CommRing F] :
    List (ℕ × SpdzMessage F) → ℕ → F
  | [], _ => 0
  | (_, SpdzMessage.sharesExchange parts) :: rest, j =>
      parts.getD j 0 + sumColumn rest j
  | _ :: rest, j => sumColumn rest j

lemma accumShares_ok {F : Type} [CommRing F] :
    ∀ (msgs : List (ℕ × SpdzMessage F)) (values vals : List F) (count : ℕ),
      values.length = count →
      accumShares count values msgs = Except.ok vals →
      vals.length = count ∧
      ∀ j < count, vals.getD j 0 = values.getD j 0 + sumColumn msgs j
  | [], values, vals, count, hlen, h => by
      simp only [accumShares] at h
      cases h
      exact ⟨hlen, fun j _ => by simp [sumColumn]⟩
  | (otherId, SpdzMessage.sharesExchange parts) :: rest, values, vals, count,
      hlen, h => by
      simp only [accumShares] at h
      by_cases hp : parts.length = count
      · rw [if_neg (by omega)] at h
        have hzlen : (values.zipWith (· + ·) parts).length = count := by
          rw [List.length_zipWith]
          omega
        obtain ⟨ih1, ih2⟩ := accumShares_ok rest _ vals count hzlen h
        refine ⟨ih1, fun j hj => ?_⟩
        rw [ih2 j hj,
          show sumColumn ((otherId, SpdzMessage.sharesExchange parts) :: rest) j
            = parts.getD j 0 + sumColumn rest j from rfl]
        have hgd : (values.zipWith (· + ·) parts).getD j 0
            = values.getD j 0 + parts.getD j 0 := by
          have hjz : j < (values.zipWith (· + ·) parts).length := by omega
          rw [List.getD_eq_getElem _ _ hjz, List.getElem_zipWith,
            List.getD_eq_getElem _ _ (by omega),
            List.getD_eq_getElem _ _ (by omega)]
        rw [hgd]
        ring
      · rw [if_pos (by omega)] at h
        cases h
  | (otherId, SpdzMessage.maskedInputs l) :: rest, _, _, _, _, h => by
      simp only [accumShares] at h
      exact Except.noConfusion h
  | (otherId, SpdzMessage.shareSumExchange l) :: rest, _, _, _, _, h => by
      simp only [accumShares] at h
      exact Except.noConfusion h
  | (otherId, SpdzMessage.stateHashCheck a) :: rest, _, _, _, _, h => by
      simp only [accumShares] at h
      exact Except.noConfusion h
  | (otherId, SpdzMessage.commitment a) :: rest, _, _, _, _, h => by
      simp only [accumShares] at h
      exact Except.noConfusion h
  | (otherId, SpdzMessage.decommitment a b) :: rest, _, _, _, _, h => by
      simp only [accumShares] at h
      exact Except.noConfusion h

/-- C9. Every successful call to `process_openings_unchecked` returns
exactly one plaintext per requested share: the response vector has the
length of the request vector, the opened-values buffer is extended by
exactly that many `(plaintext, MAC-share)` entries pairing response `j`
with request `j`, and at the coordinator response `j` is the sum of request
`j`'s own value with the peers' `j`-th payload column. -/
theorem process_openings_one_response_per_request {F : Type} [CommRing F]
    (partyId : ℕ) (requests : List (SpdzShare F))
    (peerMsgs : List (ℕ × SpdzMessage F)) (coordMsg : SpdzMessage F)
    (buf : List (F × F)) (responses : List F) (buf' : List (F × F))
    (triggered : Bool)
    (h : processOpeningsUnchecked partyId requests peerMsgs coordMsg buf
        = Except.ok (responses, buf', triggered)) :
    responses.length = requests.length ∧
    buf' = buf ++ responses.zip (requests.map SpdzShare.mac) ∧
    buf'.length = buf.length + requests.length ∧
    (partyId = 0 → ∀ j < requests.length,
      responses.getD j 0
        = (requests.map SpdzShare.value).getD j 0 + sumColumn peerMsgs j) := by
  simp only [processOpeningsUnchecked] at h
  by_cases hid : partyId = 0
  · rw [if_pos hid] at h
    cases hacc : accumShares (requests.map SpdzShare.value).length
        (requests.map SpdzShare.value) peerMsgs with
    | error e =>
        rw [hacc] at h
        simp [Except.map] at h
    | ok vals =>
        rw [hacc] at h
        simp only [Except.map, Except.ok.injEq, Prod.mk.injEq] at h
        obtain ⟨h1, h2, _⟩ := h
        obtain ⟨hlen, hcols⟩ := accumShares_ok peerMsgs _ vals _ rfl hacc
        have hrlen : responses.length = requests.length := by
          rw [← h1, hlen, List.length_map]
        have hvlen : vals.length = requests.length := by
          rw [h1]
          exact hrlen
        refine ⟨hrlen, ?_, ?_, ?_⟩
        · rw [← h2, h1]
        · rw [← h2, List.length_append, List.length_zip, List.length_map]
          omega
        · intro _ j hj
          rw [← h1]
          exact hcols j (by rw [List.length_map]; omega)
  · rw [if_neg hid] at h
    cases coordMsg with
    | shareSumExchange sums =>
        simp only at h
        by_cases hlen : sums.length = (requests.map SpdzShare.value).length
        · rw [if_neg (by omega)] at h
          simp only [Except.map, Except.ok.injEq, Prod.mk.injEq] at h
          obtain ⟨h1, h2, _⟩ := h
          have hrlen : responses.length = requests.length := by
            rw [← h1]
            rw [List.length_map] at hlen
            exact hlen
          have hslen : sums.length = requests.length := by
            rw [h1]
            exact hrlen
          refine ⟨hrlen, ?_, ?_, fun h0 => absurd h0 hid⟩
          · rw [← h2, h1]
          · rw [← h2, List.length_append, List.length_zip, List.length_map]
            omega
        · rw [if_pos (by omega)] at h
          simp [Except.map] at h
    | maskedInputs l => simp [Except.map] at h
    | sharesExchange l => simp [Except.map] at h
    | stateHashCheck a => simp [Except.map] at h
    | commitment a => simp [Except.map] at h
    | decommitment a b => simp [Except.map] at h

/-- Witness for C9: a two-party opening of two shares at the coordinator;
the peer contributes `[1, 4]`, the responses are the column sums `[3, 2]`
and the buffer gains exactly the two `(plaintext, MAC-share)` pairs. -/
theorem process_openings_one_response_per_request_witness :
    (processOpeningsUnchecked (F := ZMod 5) 0
        [⟨2, 1, 0, 0⟩, ⟨3, 0, 0, 0⟩]
        [(1, SpdzMessage.sharesExchange [1, 4])]
        (SpdzMessage.stateHashCheck 0) []
      = Except.ok ([3, 2], [(3, 1), (2, 0)], false)) ∧
    ([(3 : ZMod 5), 2].length = ([⟨2, 1, 0, 0⟩, ⟨3, 0, 0, 0⟩] : List (SpdzShare (ZMod 5))).length ∧
      [((3 : ZMod 5), (1 : ZMod 5)), (2, 0)]
        = [] ++ ([(3 : ZMod 5), 2].zip (([⟨2, 1, 0, 0⟩, ⟨3, 0, 0, 0⟩] : List (SpdzShare (ZMod 5))).map SpdzShare.mac)) ∧
      [((3 : ZMod 5), (1 : ZMod 5)), (2, 0)].length
        = ([] : List (ZMod 5 × ZMod 5)).length + ([⟨2, 1, 0, 0⟩, ⟨3, 0, 0, 0⟩] : List (SpdzShare (ZMod 5))).length ∧
      ((0 : ℕ) = 0 → ∀ j < ([⟨2, 1, 0, 0⟩, ⟨3, 0, 0, 0⟩] : List (SpdzShare (ZMod 5))).length,
        [(3 : ZMod 5), 2].getD j 0
          = (([⟨2, 1, 0, 0⟩, ⟨3, 0, 0, 0⟩] : List (SpdzShare (ZMod 5))).map SpdzShare.value).getD j 0
            + sumColumn [(1, SpdzMessage.sharesExchange [(1 : ZMod 5), 4])] j)) :=
  ⟨by decide,
    process_openings_one_response_per_request 0
      [⟨2, 1, 0, 0⟩, ⟨3, 0, 0, 0⟩]
      [(1, SpdzMessage.sharesExchange [1, 4])]
      (SpdzMessage.stateHashCheck 0) [] [3, 2] [(3, 1), (2, 0)] false
      (by decide)⟩

/-! ### Precomputed SPDZ dealer (src/mpc/src/spdz/precomp_dealer.rs) and
the executor's exhaustion check (src/mpc/src/executor.rs) -/

/-- `Default::default()` for a share: all components zero (derived
`Default`). -/
def SpdzShare.defaultShare {F : Type} [CommRing F] : SpdzShare F :=
  ⟨0, 0, 0, 0⟩

/-- `MpcShare::double`, used by the `next_uint` fold. -/
def SpdzShare.double {F : Type} [CommRing F] (x : SpdzShare F) : SpdzShare F :=
  ⟨x.value + x.value, x.mac + x.mac, x.auth, x.partyId⟩

/-- `PrecomputedSpdzData` together with the `is_exhausted` flag of
`PrecomputedSpdzDealer` (precomp_dealer.rs lines 14-23 and 46-49).  The
supply `Vec`s are popped from the back (`Vec::pop`; the spec notes the
LIFO order); each list here is that stack with its next entry first. -/
structure PrecompDealer (F : Type) where
  numParties : ℕ
  partyId : ℕ
  authKey : F
  beaverTriples : List (SpdzShare F × SpdzShare F × SpdzShare F)
  randomBits : List (SpdzShare F)
  inputMasks : List (List (SpdzShare F))
  inputMasksPlain : List F
  isExhausted : Bool
deriving DecidableEq

/-- `next_bit` (precomp_dealer.rs lines 71-78): pop a random-bit share; on
an empty supply set `is_exhausted` and return the default share. -/
def PrecompDealer.nextBit {F : Type} [CommRing F] (d : PrecompDealer F) :
    SpdzShare F × PrecompDealer F :=
  match d.randomBits with
  | share :: rest => (share, { d with randomBits := rest })
  | [] => (SpdzShare.defaultShare, { d with isExhausted := true })

/-- `next_beaver_triple` (precomp_dealer.rs lines 99-106). -/
def PrecompDealer.nextBeaverTriple {F : Type} [CommRing F]
    (d : PrecompDealer F) :
    (SpdzShare F × SpdzShare F × SpdzShare F) × PrecompDealer F :=
  match d.beaverTriples with
  | triple :: rest => (triple, { d with beaverTriples := rest })
  | [] =>
      ((SpdzShare.defaultShare, SpdzShare.defaultShare, SpdzShare.defaultShare),
        { d with isExhausted := true })

/-- The fold of `next_uint` (precomp_dealer.rs lines 108-110):
`(0..bits).fold(zero, |acc, _| acc.double() + self.next_bit())`. -/
def PrecompDealer.nextUintAux {F : Type} [CommRing F] :
    ℕ → SpdzShare F → PrecompDealer F → SpdzShare F × PrecompDealer F
  | 0, acc, d => (acc, d)
  | n + 1, acc, d =>
      let r := d.nextBit
      PrecompDealer.nextUintAux n (acc.double.add r.1) r.2

/-- `next_uint` (precomp_dealer.rs lines 108-110). -/
def PrecompDealer.nextUint {F : Type} [CommRing F] (d : PrecompDealer F)
    (bits : ℕ) : SpdzShare F × PrecompDealer F :=
  PrecompDealer.nextUintAux bits SpdzShare.defaultShare d

/-- `next_input_mask_own` (precomp_dealer.rs lines 122-130); the
`input_masks_plain.pop().unwrap()` panic is embedded as an error. -/
def PrecompDealer.nextInputMaskOwn {F : Type} [CommRing F]
    (d : PrecompDealer F) :
    Except String ((SpdzShare F × F) × PrecompDealer F) :=
  match d.inputMasks.getD d.partyId [] with
  | mask :: rest =>
      match d.inputMasksPlain with
      | plainv :: prest =>
          Except.ok ((mask, plainv),
            { d with inputMasks := d.inputMasks.set d.partyId rest,
                     inputMasksPlain := prest })
      | [] => Except.error "unwrap on empty input_masks_plain"
  | [] =>
      Except.ok ((SpdzShare.defaultShare, 0), { d with isExhausted := true })

/-- `next_input_mask_for` (precomp_dealer.rs lines 132-142): asking for
one's own mask is a programmer error (`panic!`), embedded as an error. -/
def PrecompDealer.nextInputMaskFor {F : Type} [CommRing F]
    (d : PrecompDealer F) (id : ℕ) :
    Except String (SpdzShare F × PrecompDealer F) :=
  if id = d.partyId then
    Except.error "Tried to get own mask as third-party mask"
  else
    match d.inputMasks.getD id [] with
    | mask :: rest =>
        Except.ok (mask, { d with inputMasks := d.inputMasks.set id rest })
    | [] => Except.ok (SpdzShare.defaultShare, { d with isExhausted := true })

/-- Result of polling the circuit future in the `run_circuit` loop. -/
inductive CircuitPoll (α : Type) where
  | ready (out : α)
  | pending
deriving DecidableEq

/-- `MpcExecutionError` (executor.rs lines 17-20). -/
inductive MpcExecutionError (E : Type) where
  | engine (err : E)
  | dealerExhausted
deriving DecidableEq

/-- The control decision of one iteration of the `run_circuit` loop
(executor.rs lines 121-131): right after polling the circuit — and before
the `Poll::Ready` case is even examined — the executor checks
`dealer.is_exhausted()` and returns `DealerExhausted`; otherwise a ready
circuit yields its output (`some`) after the final integrity check and a
pending circuit continues with the next round (`none`). -/
def runCircuitStep {F α : Type} [CommRing F] (d : PrecompDealer F)
    (poll : CircuitPoll α) : Except (MpcExecutionError SpdzError) (Option α) :=
  if d.isExhausted then Except.error MpcExecutionError.dealerExhausted
  else
    match poll with
    | CircuitPoll.ready out => Except.ok (some out)
    | CircuitPoll.pending => Except.ok none

lemma nextBit_exhausted_mono {F : Type} [CommRing F] (d : PrecompDealer F)
    (h : d.isExhausted = true) : (d.nextBit).2.isExhausted = true := by
  unfold PrecompDealer.nextBit
  cases d.randomBits <;> simp [h]

lemma nextUintAux_exhausted_mono {F : Type} [CommRing F] :
    ∀ (n : ℕ) (acc : SpdzShare F) (d : PrecompDealer F),
      d.isExhausted = true →
      (PrecompDealer.nextUintAux n acc d).2.isExhausted = true
  | 0, _, _, h => h
  | n + 1, acc, d, h => by
      unfold PrecompDealer.nextUintAux
      exact nextUintAux_exhausted_mono n _ _ (nextBit_exhausted_mono d h)

/-- C7 (amended).  Exhaustion behaviour of the precomputed dealer and the
executor: once a supply is empty and requested again the dealer returns
default values for that supply and sets `is_exhausted`; the flag is
monotone (never resets) under every dealer operation; and the
`run_circuit` loop surfaces the state by returning `DealerExhausted`
instead of a circuit result, even when the circuit is ready. -/
theorem dealer_exhaustion_behaviour {F α : Type} [CommRing F]
    (d : PrecompDealer F) (bits : ℕ) (id : ℕ) (poll : CircuitPoll α) :
    (d.isExhausted = true →
      (d.nextBit).2.isExhausted = true ∧
      (d.nextBeaverTriple).2.isExhausted = true ∧
      (d.nextUint bits).2.isExhausted = true ∧
      (∀ r, d.nextInputMaskOwn = Except.ok r → r.2.isExhausted = true) ∧
      (∀ r, d.nextInputMaskFor id = Except.ok r → r.2.isExhausted = true)) ∧
    (d.randomBits = [] →
      d.nextBit = (SpdzShare.defaultShare, { d with isExhausted := true })) ∧
    (d.beaverTriples = [] →
      d.nextBeaverTriple
        = ((SpdzShare.defaultShare, SpdzShare.defaultShare,
            SpdzShare.defaultShare), { d with isExhausted := true })) ∧
    (d.isExhausted = true →
      runCircuitStep d poll
        = Except.error MpcExecutionError.dealerExhausted) := by
  refine ⟨fun h => ⟨nextBit_exhausted_mono d h, ?_, ?_, ?_, ?_⟩, ?_, ?_, ?_⟩
  · unfold PrecompDealer.nextBeaverTriple
    cases d.beaverTriples <;> simp [h]
  · exact nextUintAux_exhausted_mono bits _ d h
  · intro r hr
    unfold PrecompDealer.nextInputMaskOwn at hr
    rcases hml : d.inputMasks.getD d.partyId [] with _ | ⟨mask, rest⟩
    · rw [hml] at hr
      simp only [Except.ok.injEq] at hr
      rw [← hr]
    · rw [hml] at hr
      rcases hpl : d.inputMasksPlain with _ | ⟨plainv, prest⟩
      · rw [hpl] at hr
        exact Except.noConfusion hr
      · rw [hpl] at hr
        simp only [Except.ok.injEq] at hr
        rw [← hr]
        exact h
  · intro r hr
    unfold PrecompDealer.nextInputMaskFor at hr
    by_cases hown : id = d.partyId
    · rw [if_pos hown] at hr
      exact Except.noConfusion hr
    · rw [if_neg hown] at hr
      rcases hml : d.inputMasks.getD id [] with _ | ⟨mask, rest⟩
      · rw [hml] at hr
        simp only [Except.ok.injEq] at hr
        rw [← hr]
      · rw [hml] at hr
        simp only [Except.ok.injEq] at hr
        rw [← hr]
        exact h
  · intro h
    unfold PrecompDealer.nextBit
    rw [h]
  · intro h
    unfold PrecompDealer.nextBeaverTriple
    rw [h]
  · intro h
    unfold runCircuitStep
    rw [h]
    rfl

/-- Witness for C7's amended theorem, on an exhausted dealer with empty
supplies over `ZMod 5`. -/
theorem dealer_exhaustion_behaviour_witness :
    ((⟨2, 0, 1, [], [], [[], []], [], true⟩ :
        PrecompDealer (ZMod 5)).nextBit).2.isExhausted = true ∧
    (⟨2, 0, 1, [], [], [[], []], [], true⟩ :
        PrecompDealer (ZMod 5)).nextBeaverTriple
      = ((SpdzShare.defaultShare, SpdzShare.defaultShare,
          SpdzShare.defaultShare),
         ⟨2, 0, 1, [], [], [[], []], [], true⟩) ∧
    runCircuitStep (⟨2, 0, 1, [], [], [[], []], [], true⟩ :
        PrecompDealer (ZMod 5)) (CircuitPoll.ready (42 : ℕ))
      = Except.error MpcExecutionError.dealerExhausted :=
  ⟨((dealer_exhaustion_behaviour
      (⟨2, 0, 1, [], [], [[], []], [], true⟩ : PrecompDealer (ZMod 5))
      1 1 (CircuitPoll.ready (42 : ℕ))).1 rfl).1,
    (dealer_exhaustion_behaviour
      (⟨2, 0, 1, [], [], [[], []], [], true⟩ : PrecompDealer (ZMod 5))
      1 1 (CircuitPoll.ready (42 : ℕ))).2.2.1 rfl,
    (dealer_exhaustion_behaviour
      (⟨2, 0, 1, [], [], [[], []], [], true⟩ : PrecompDealer (ZMod 5))
      1 1 (CircuitPoll.ready (42 : ℕ))).2.2.2 rfl⟩

/-- C7 counterexample: after the Beaver-triple supply is exhausted (the
flag is set), a call drawing from the still non-empty random-bit supply
returns a real, non-default share — not "a default value" as the claim
states for every further dealer call. -/
theorem dealer_not_all_defaults_after_exhaustion :
    ((⟨2, 0, 1, [], [⟨1, 2, 3, 4⟩], [[], []], [], false⟩ :
        PrecompDealer (ZMod 5)).nextBeaverTriple).2.isExhausted = true ∧
    (((⟨2, 0, 1, [], [⟨1, 2, 3, 4⟩], [[], []], [], false⟩ :
        PrecompDealer (ZMod 5)).nextBeaverTriple).2.nextUint 1).1
      ≠ SpdzShare.defaultShare := by
  decide

/-! ### Message traces of an honest execution
(src/mpc/src/spdz/engine.rs)

`SpdzEngine::new` (engine.rs lines 85-96) seeds the party's local RNG with
`SpdzRng::from_entropy()`; `exchange_with_commitment` (lines 282-328) draws
a fresh 32-byte salt from that RNG for every commitment, and
`gen_common_random_element` (lines 275-279) additionally draws a random
field element.  The trace model below makes those RNG draws explicit
parameters; the commitment hash is an abstract function. -/

/-- The two messages a party broadcasts in one `exchange_with_commitment`
(engine.rs lines 282-328): its commitment `H(salt, elem)` followed by the
decommitment `(elem, salt)`. -/
def commitExchangeMsgs {F : Type} (hash : F → ℕ → ℕ) (elem : F) (salt : ℕ) :
    List (SpdzMessage F) :=
  [SpdzMessage.commitment (hash elem salt),
   SpdzMessage.decommitment elem salt]

/-- The messages a party emits in `check_integrity` with a non-empty
opened-values buffer (engine.rs lines 230-253): the commit-then-reveal
exchange of its random-element seed, the commit-then-reveal exchange of
its MAC-check share, and the closing state-hash check. -/
def checkIntegrityMsgs {F : Type} (hash : F → ℕ → ℕ) (seed : F)
    (saltSeed : ℕ) (checkShare : F) (saltCheck : ℕ) (stateHash : ℕ) :
    List (SpdzMessage F) :=
  commitExchangeMsgs hash seed saltSeed
    ++ commitExchangeMsgs hash checkShare saltCheck
    ++ [SpdzMessage.stateHashCheck stateHash]

/-- The message trace of a non-coordinator party in a minimal honest
execution: the input-phase `MaskedInputs` broadcast and state-hash check
(engine.rs lines 129-176), one opening round's `SharesExchange` (lines
201-204), and the final integrity check of `run_circuit`. -/
def honestPartyTrace {F : Type} [CommRing F] (hash : F → ℕ → ℕ)
    (ownDeltas : List F) (inputStateHash : ℕ)
    (requests : List (SpdzShare F)) (seed : F) (saltSeed : ℕ)
    (checkShare : F) (saltCheck : ℕ) (finalStateHash : ℕ) :
    List (SpdzMessage F) :=
  [SpdzMessage.maskedInputs ownDeltas,
   SpdzMessage.stateHashCheck inputStateHash,
   SpdzMessage.sharesExchange (requests.map SpdzShare.value)]
    ++ checkIntegrityMsgs hash seed saltSeed checkShare saltCheck
        finalStateHash

/-- C8 (amended).  Determinism of an honest party's protocol messages: the
input-phase and opening-phase messages are identical across two honest
executions of the same circuit on the same inputs and dealer seed
regardless of the engine's local RNG, and the full trace — including the
commitment, decommitment and post-commitment state-hash messages — is
identical provided the local RNG draws (commit salts and random-element
seeds, drawn from an entropy-seeded RNG) also coincide. -/
theorem honest_executions_same_messages {F : Type} [CommRing F]
    (hash : F → ℕ → ℕ) (ownDeltas : List F) (inputStateHash : ℕ)
    (requests : List (SpdzShare F)) (seed1 seed2 check1 check2 : F)
    (saltA1 saltA2 saltB1 saltB2 : ℕ) (final1 final2 : ℕ) :
    List.take 3 (honestPartyTrace hash ownDeltas inputStateHash requests
        seed1 saltA1 check1 saltB1 final1)
      = List.take 3 (honestPartyTrace hash ownDeltas inputStateHash requests
        seed2 saltA2 check2 saltB2 final2)
    ∧ (seed1 = seed2 → saltA1 = saltA2 → check1 = check2 → saltB1 = saltB2 →
        final1 = final2 →
        honestPartyTrace hash ownDeltas inputStateHash requests
            seed1 saltA1 check1 saltB1 final1
          = honestPartyTrace hash ownDeltas inputStateHash requests
            seed2 saltA2 check2 saltB2 final2) := by
  refine ⟨rfl, ?_⟩
  intro h1 h2 h3 h4 h5
  rw [h1, h2, h3, h4, h5]

/-- Witness for C8's amended theorem at concrete values over `ZMod 5`. -/
theorem honest_executions_same_messages_witness :
    List.take 3 (honestPartyTrace (fun _ _ => 0) [(1 : ZMod 5)] 7
        [⟨2, 3, 0, 1⟩] 4 11 2 13 9)
      = List.take 3 (honestPartyTrace (fun _ _ => 0) [(1 : ZMod 5)] 7
        [⟨2, 3, 0, 1⟩] 3 12 1 14 8)
    ∧ ((4 : ZMod 5) = 4 → 11 = 11 → (2 : ZMod 5) = 2 → 13 = 13 → 9 = 9 →
        honestPartyTrace (fun _ _ => 0) [(1 : ZMod 5)] 7 [⟨2, 3, 0, 1⟩]
            4 11 2 13 9
          = honestPartyTrace (fun _ _ => 0) [(1 : ZMod 5)] 7 [⟨2, 3, 0, 1⟩]
            4 11 2 13 9) :=
  ⟨(honest_executions_same_messages (fun _ _ => 0) [(1 : ZMod 5)] 7
      [⟨2, 3, 0, 1⟩] 4 3 2 1 11 12 13 14 9 8).1,
    (honest_executions_same_messages (fun _ _ => 0) [(1 : ZMod 5)] 7
      [⟨2, 3, 0, 1⟩] 4 4 2 2 11 11 13 13 9 9).2⟩

/-- C8 counterexample: two honest executions of the same circuit on the
same inputs and dealer seed, differing only in the salt drawn from the
engine's entropy-seeded local RNG (`SpdzRng::from_entropy()`), emit
different message sequences — the decommitment message itself contains the
salt — so the claimed determinism does not hold as stated. -/
theorem honest_executions_differ_on_rng :
    honestPartyTrace (fun _ _ => 0) [(1 : ZMod 5)] 7 [⟨2, 3, 0, 1⟩]
        0 0 0 0 9
      ≠ honestPartyTrace (fun _ _ => 0) [(1 : ZMod 5)] 7 [⟨2, 3, 0, 1⟩]
        0 1 0 0 9 := by
  decide

/-! ### Sorting circuits (src/mpc/src/circuits/sorting.rs)

The circuits are embedded at the level of opened values: an `IntShare<N>`
slice is a `List ℤ`; `IntShare::greater` opens to the exact integer
comparison for in-range values (a consequence of `div_power_of_two_opens`,
since `greater(a, b) = -div_power_of_two(b - a, N)` on differences in
`(-2^N, 2^N)`), and `swap_if` (boolean.rs lines 114-121,
`delta = c * (x - y)`, result `(x - delta, y + delta)`) conditionally
swaps the two opened values. -/

/-- A recorded compare-exchange: the two indices and the hidden comparison
bit `elems[first] > elems[second]` (`MaybeSwap`, sorting.rs lines 10-14). -/
structure MaybeSwap where
  firstIndex : ℕ
  secondIndex : ℕ
  condition : Bool
deriving DecidableEq

/-- `swap_if` at the level of opened values: `(y, x)` when the condition
bit is set, `(x, y)` otherwise. -/
def swapIf {α : Type} (c : Bool) (x y : α) : α × α :=
  if c then (y, x) else (x, y)

/-- `apply_swaps_round` (sorting.rs lines 20-43): all `swap_if` results are
computed concurrently from the slice as it was at the start of the round,
then written back at the recorded index pairs. -/
def applySwapsRound {α : Type} [Inhabited α] (elems : List α)
    (insts : List MaybeSwap) : List α :=
  (insts.map fun inst =>
      (inst.firstIndex, inst.secondIndex,
        swapIf inst.condition (elems.getD inst.firstIndex default)
          (elems.getD inst.secondIndex default))).foldl
    (fun acc r => (acc.set r.1 r.2.2.1).set r.2.1 r.2.2.2) elems

/-- `apply_swaps` (sorting.rs lines 46-55): apply the recorded rounds in
order. -/
def applySwaps {α : Type} [Inhabited α] (elems : List α)
    (instructions : List (List MaybeSwap)) : List α :=
  instructions.foldl applySwapsRound elems

/-- One round of comparisons generated by `sort` for a given `segment` and
`step` (sorting.rs lines 90-107): `j` ranges over
`(step % segment .. n - step)` with stride `step * 2`, `i` over
`0 .. min(step, n - j - step)`, and the pair `(i + j, i + j + step)` is
emitted when both indices lie in the same `segment * 2` block; the
recorded condition is the current comparison
`elems[first] > elems[second]`. -/
def sortRoundInsts (elems : List ℤ) (n segment step : ℕ) :
    List MaybeSwap :=
  ((List.range (n - step)).filter fun j =>
      decide (step % segment ≤ j) &&
        decide ((j - step % segment) % (step * 2) = 0)).flatMap
    fun j =>
      (List.range (min step (n - j - step))).filterMap fun i =>
        if (i + j) / (segment * 2) = (i + j + step) / (segment * 2) then
          some ⟨i + j, i + j + step,
            decide (elems.getD (i + j + step) 0 < elems.getD (i + j) 0)⟩
        else none

/-- The `(segment, step)` pairs of `sort`'s two outer loops (sorting.rs
lines 86-115): segments `1, 2, 4, ...` below `n`, and for each segment the
steps `segment, segment / 2, ..., 1`. -/
def sortSchedule (n : ℕ) : List (ℕ × ℕ) :=
  (((List.range n).filter fun s => decide (2 ^ s < n)).flatMap
    fun s => ((List.range (s + 1)).reverse).map fun t => (2 ^ s, 2 ^ t))

/-- `sort` (sorting.rs lines 76-118): iterative Batcher odd-even mergesort
at the level of opened values.  Returns the rearranged slice together with
the recorded swap schedule. -/
def sortRun (elems : List ℤ) : List ℤ × List (List MaybeSwap) :=
  (sortSchedule elems.length).foldl
    (fun st sp =>
      let insts := sortRoundInsts st.1 elems.length sp.1 sp.2
      (applySwapsRound st.1 insts, st.2 ++ [insts]))
    (elems, [])

/-! Function-space model of the comparator rounds, used for the
correctness proof. -/

/-- The condition under which position `x` is the lower end of a
compare-exchange in the round `(segment, step) = (p, k)`: this is the
characterization of the index pairs emitted by `sortRoundInsts`. -/
def SwapCond (n p k x : ℕ) : Prop :=
  x + k < n ∧ k % p ≤ x % (k * 2) ∧ x % (k * 2) < k % p + k ∧
    x / (p * 2) = (x + k) / (p * 2)

instance (n p k x : ℕ) : Decidable (SwapCond n p k x) := by
  unfold SwapCond
  infer_instance

/-- One comparator round on the function space: position `x` receives the
smaller of `v x, v (x + k)` when it heads a comparator, the larger of
`v (x - k), v x` when it is the upper end of one, and is untouched
otherwise. -/
def netRound {α : Type} [LinearOrder α] (n p k : ℕ) (v : ℕ → α) :
    ℕ → α := fun x =>
  if SwapCond n p k x then min (v x) (v (x + k))
  else if k ≤ x ∧ SwapCond n p k (x - k) then max (v (x - k)) (v x)
  else v x

/-- The whole sorting network on the function space. -/
def applyScheduleF {α : Type} [LinearOrder α] (n : ℕ) (v : ℕ → α) :
    ℕ → α :=
  (sortSchedule n).foldl (fun w sp => netRound n sp.1 sp.2 w) v

/-- `v` is sorted on positions `0, ..., n - 1`. -/
def SortedOn {α : Type} [LinearOrder α] (n : ℕ) (v : ℕ → α) : Prop :=
  ∀ i j, i ≤ j → j < n → v i ≤ v j

/-- Membership characterization of `sortRoundInsts`. -/
lemma mem_sortRoundInsts {l : List ℤ} {n p k : ℕ}
    {inst : MaybeSwap} :
    inst ∈ sortRoundInsts l n p k ↔
      ∃ x, SwapCond n p k x ∧
        inst = ⟨x, x + k, decide (l.getD (x + k) 0 < l.getD x 0)⟩ := by
  have ha : k % p ≤ k := Nat.mod_le _ _
  constructor
  · intro h
    simp only [sortRoundInsts, List.mem_flatMap, List.mem_filter,
      List.mem_range, Bool.and_eq_true, decide_eq_true_eq,
      List.mem_filterMap] at h
    obtain ⟨j, ⟨hjn, hja, hjmod⟩, i, hi, hif⟩ := h
    rw [Nat.lt_min] at hi
    by_cases hblk : (i + j) / (p * 2) = (i + j + k) / (p * 2)
    · rw [if_pos hblk] at hif
      obtain ⟨m, hm⟩ := Nat.dvd_of_mod_eq_zero hjmod
      have hj' : j = k % p + (k * 2) * m := by omega
      have hxmod : (i + j) % (k * 2) = k % p + i := by
        have : i + j = (k % p + i) + (k * 2) * m := by omega
        rw [this, Nat.add_mul_mod_self_left, Nat.mod_eq_of_lt (by omega)]
      refine ⟨i + j, ⟨by omega, by omega, by omega, hblk⟩, ?_⟩
      exact (Option.some.injEq _ _).mp hif |>.symm
    · rw [if_neg hblk] at hif
      exact absurd hif (by simp)
  · rintro ⟨x, ⟨hxn, hwl, hwr, hblk⟩, rfl⟩
    have hq := Nat.div_add_mod x (k * 2)
    set q := x / (k * 2) with hqdef
    set r := x % (k * 2) with hrdef
    simp only [sortRoundInsts, List.mem_flatMap, List.mem_filter,
      List.mem_range, Bool.and_eq_true, decide_eq_true_eq,
      List.mem_filterMap]
    refine ⟨k % p + k * 2 * q, ⟨by omega, by omega, ?_⟩, r - k % p, ?_, ?_⟩
    · have : k % p + k * 2 * q - k % p = k * 2 * q := by omega
      rw [this, Nat.mul_mod_right]
    · rw [Nat.lt_min]
      omega
    · have hx : r - k % p + (k % p + k * 2 * q) = x := by omega
      rw [hx, if_pos hblk]

/-- The window of lower comparator ends is disjoint from its `k`-shift:
a position and its partner cannot both head comparators in one round. -/
lemma window_shift {p k x : ℕ} (hk : 0 < k)
    (h1 : k % p ≤ x % (k * 2)) (h2 : x % (k * 2) < k % p + k) :
    ¬(k % p ≤ (x + k) % (k * 2) ∧ (x + k) % (k * 2) < k % p + k) := by
  have hq := Nat.div_add_mod x (k * 2)
  set q := x / (k * 2)
  set r := x % (k * 2)
  have hr2 : r < k * 2 := Nat.mod_lt _ (by omega)
  have hxk : x + k = r + k + k * 2 * q := by omega
  have hmod : (x + k) % (k * 2) = (r + k) % (k * 2) := by
    rw [hxk, Nat.add_mul_mod_self_left]
  rcases lt_or_le (r + k) (k * 2) with hlt | hge
  · rw [hmod, Nat.mod_eq_of_lt hlt]
    omega
  · rw [hmod, Nat.mod_eq_sub_mod hge,
      Nat.mod_eq_of_lt (show r + k - k * 2 < k * 2 by omega)]
    omega

/-- A round of instructions is well-formed for length `n`: all indices in
range, the two indices of every instruction distinct, and the index pairs
of distinct instructions pairwise disjoint. -/
def WFRound (n : ℕ) (insts : List MaybeSwap) : Prop :=
  (∀ inst ∈ insts, inst.firstIndex < n ∧ inst.secondIndex < n ∧
    inst.firstIndex ≠ inst.secondIndex) ∧
  insts.Pairwise (fun a b => a.firstIndex ≠ b.firstIndex ∧
    a.firstIndex ≠ b.secondIndex ∧ a.secondIndex ≠ b.firstIndex ∧
    a.secondIndex ≠ b.secondIndex)

/-- Members of the inner loop body of `sortRoundInsts` for a fixed `j`. -/
lemma mem_sortRoundInner {l : List ℤ} {n p k j : ℕ} {x : MaybeSwap}
    (hx : x ∈ (List.range (min k (n - j - k))).filterMap fun i =>
        if (i + j) / (p * 2) = (i + j + k) / (p * 2) then
          some (⟨i + j, i + j + k,
            decide (l.getD (i + j + k) 0 < l.getD (i + j) 0)⟩ : MaybeSwap)
        else none) :
    ∃ i, i < k ∧ i < n - j - k ∧ x.firstIndex = i + j := by
  rw [List.mem_filterMap] at hx
  obtain ⟨i, hi, hif⟩ := hx
  rw [List.mem_range, Nat.lt_min] at hi
  by_cases hblk : (i + j) / (p * 2) = (i + j + k) / (p * 2)
  · rw [if_pos hblk, Option.some.injEq] at hif
    exact ⟨i, hi.1, hi.2, by rw [← hif]⟩
  · rw [if_neg hblk] at hif
    exact absurd hif (by simp)

/-- Within one round the lower comparator ends are strictly increasing in
generation order. -/
lemma sortRoundInsts_pairwise_lt (l : List ℤ) (n p k : ℕ) :
    (sortRoundInsts l n p k).Pairwise
      (fun a b => a.firstIndex < b.firstIndex) := by
  unfold sortRoundInsts
  rw [List.flatMap_def, List.pairwise_flatten]
  constructor
  · intro l' hl'
    rw [List.mem_map] at hl'
    obtain ⟨j, _, rfl⟩ := hl'
    refine List.Pairwise.filterMap _ ?_ (List.pairwise_lt_range _)
    intro i i' hii b hb b' hb'
    simp only [Option.mem_def] at hb hb'
    by_cases h1 : (i + j) / (p * 2) = (i + j + k) / (p * 2)
    · rw [if_pos h1, Option.some.injEq] at hb
      by_cases h2 : (i' + j) / (p * 2) = (i' + j + k) / (p * 2)
      · rw [if_pos h2, Option.some.injEq] at hb'
        rw [← hb, ← hb']
        simpa using hii
      · rw [if_neg h2] at hb'
        exact absurd hb' (by simp)
    · rw [if_neg h1] at hb
      exact absurd hb (by simp)
  · rw [List.pairwise_map]
    have hpw : (List.filter (fun j =>
        decide (k % p ≤ j) && decide ((j - k % p) % (k * 2) = 0))
        (List.range (n - k))).Pairwise (fun j j' =>
          j < j' ∧ (k % p ≤ j ∧ (j - k % p) % (k * 2) = 0) ∧
            (k % p ≤ j' ∧ (j' - k % p) % (k * 2) = 0)) := by
      refine List.Pairwise.imp_of_mem ?_
        ((List.pairwise_lt_range _).filter _)
      intro a b ha hb hab
      rw [List.mem_filter, Bool.and_eq_true, decide_eq_true_eq,
        decide_eq_true_eq] at ha hb
      exact ⟨hab, ha.2, hb.2⟩
    refine hpw.imp_of_mem ?_
    rintro j j' - - ⟨hjj, ⟨hja, hjm⟩, ⟨hj'a, hj'm⟩⟩ x hx y hy
    obtain ⟨i, hik, -, hxf⟩ := mem_sortRoundInner hx
    obtain ⟨i', -, -, hyf⟩ := mem_sortRoundInner hy
    obtain ⟨m, hm⟩ := Nat.dvd_of_mod_eq_zero hjm
    obtain ⟨m', hm'⟩ := Nat.dvd_of_mod_eq_zero hj'm
    have hmm : m < m' := by
      rcases Nat.lt_or_ge m m' with h | h
      · exact h
      · exfalso
        have := Nat.mul_le_mul_left (k * 2) h
        omega
    have hstep := Nat.mul_le_mul_left (k * 2) (Nat.succ_le_of_lt hmm)
    rw [Nat.mul_succ] at hstep
    rw [hxf, hyf]
    omega

lemma sortRoundInsts_wf (l : List ℤ) (n p k : ℕ) (hk : 0 < k) :
    WFRound n (sortRoundInsts l n p k) := by
  constructor
  · intro inst hm
    rw [mem_sortRoundInsts] at hm
    obtain ⟨x, hc, rfl⟩ := hm
    have h1 := hc.1
    show x < n ∧ x + k < n ∧ x ≠ x + k
    omega
  · refine (sortRoundInsts_pairwise_lt l n p k).imp_of_mem ?_
    intro a b ha hb hab
    rw [mem_sortRoundInsts] at ha hb
    obtain ⟨x, hcx, rfl⟩ := ha
    obtain ⟨y, hcy, rfl⟩ := hb
    simp only at hab ⊢
    refine ⟨by omega, by omega, ?_, by omega⟩
    intro he
    subst he
    exact window_shift hk hcx.2.1 hcx.2.2.1 ⟨hcy.2.1, hcy.2.2.1⟩

/-- The result of applying a round of recorded swaps, position by
position: the permutation sending each index to the index its new value
comes from. -/
def roundPerm (insts : List MaybeSwap) (x : ℕ) : ℕ :=
  match insts.find? (fun inst =>
      inst.condition && (inst.firstIndex == x || inst.secondIndex == x)) with
  | some inst => if inst.firstIndex = x then inst.secondIndex
      else inst.firstIndex
  | none => x

lemma roundPerm_eq_self_of {insts : List MaybeSwap} {x : ℕ}
    (h : ∀ i ∈ insts, i.condition = true →
      i.firstIndex ≠ x ∧ i.secondIndex ≠ x) :
    roundPerm insts x = x := by
  unfold roundPerm
  have hn : insts.find? (fun inst =>
      inst.condition && (inst.firstIndex == x || inst.secondIndex == x))
      = none := by
    rw [List.find?_eq_none]
    intro i hi
    simp only [Bool.and_eq_true, Bool.or_eq_true, beq_iff_eq, not_and]
    intro hc
    have := h i hi hc
    omega
  rw [hn]

lemma roundPerm_of_not_touched {insts : List MaybeSwap} {x : ℕ}
    (h : ∀ i ∈ insts, i.firstIndex ≠ x ∧ i.secondIndex ≠ x) :
    roundPerm insts x = x :=
  roundPerm_eq_self_of (fun i hi _ => h i hi)

/-- How `roundPerm` acts on the two ends of a recorded instruction. -/
lemma roundPerm_touched {insts : List MaybeSwap} {inst : MaybeSwap}
    (hwf : insts.Pairwise (fun a b => a.firstIndex ≠ b.firstIndex ∧
      a.firstIndex ≠ b.secondIndex ∧ a.secondIndex ≠ b.firstIndex ∧
      a.secondIndex ≠ b.secondIndex))
    (hfs : inst.firstIndex ≠ inst.secondIndex)
    (hm : inst ∈ insts) :
    roundPerm insts inst.firstIndex =
      (if inst.condition then inst.secondIndex else inst.firstIndex) ∧
    roundPerm insts inst.secondIndex =
      (if inst.condition then inst.firstIndex else inst.secondIndex) := by
  induction insts with
  | nil => exact absurd hm (by simp)
  | cons hd tl ih =>
    rw [List.pairwise_cons] at hwf
    rcases List.mem_cons.mp hm with rfl | hmtl
    · cases hcond : inst.condition
      · have hid : ∀ y, inst.firstIndex = y ∨ inst.secondIndex = y →
            roundPerm (inst :: tl) y = y := by
          intro y hy
          apply roundPerm_eq_self_of
          intro i hi hc
          rcases List.mem_cons.mp hi with rfl | hitl
          · rw [hcond] at hc
            exact absurd hc (by simp)
          · have := hwf.1 i hitl
            omega
        rw [hid _ (Or.inl rfl), hid _ (Or.inr rfl)]
        simp
      · constructor
        · unfold roundPerm
          rw [List.find?_cons_of_pos _ (by simp [hcond])]
          simp [hcond]
        · unfold roundPerm
          rw [List.find?_cons_of_pos _ (by simp [hcond])]
          show (if inst.firstIndex = inst.secondIndex then inst.secondIndex
            else inst.firstIndex) = _
          rw [if_neg hfs]
          simp
    · have hd1 := hwf.1 inst hmtl
      have hskip : ∀ y, hd.firstIndex ≠ y → hd.secondIndex ≠ y →
          roundPerm (hd :: tl) y = roundPerm tl y := by
        intro y h1 h2
        unfold roundPerm
        rw [List.find?_cons_of_neg]
        simp only [Bool.and_eq_true, Bool.or_eq_true, beq_iff_eq, not_and]
        intro
        omega
      rw [hskip _ hd1.1 hd1.2.2.1, hskip _ hd1.2.1 hd1.2.2.2]
      exact ih hwf.2 hmtl

lemma roundPerm_lt {n : ℕ} {insts : List MaybeSwap} (hwf : WFRound n insts)
    {x : ℕ} (hx : x < n) : roundPerm insts x < n := by
  unfold roundPerm
  cases hfind : insts.find? (fun inst =>
      inst.condition && (inst.firstIndex == x || inst.secondIndex == x)) with
  | none => exact hx
  | some inst =>
    have hm := List.mem_of_find?_eq_some hfind
    have := hwf.1 inst hm
    show (if inst.firstIndex = x then inst.secondIndex
      else inst.firstIndex) < n
    split <;> omega

lemma roundPerm_involutive {n : ℕ} {insts : List MaybeSwap}
    (hwf : WFRound n insts) (x : ℕ) :
    roundPerm insts (roundPerm insts x) = x := by
  by_cases htouch : ∃ inst ∈ insts, inst.condition = true ∧
      (inst.firstIndex = x ∨ inst.secondIndex = x)
  · obtain ⟨inst, hm, hc, hfs⟩ := htouch
    have ht := roundPerm_touched hwf.2 (hwf.1 inst hm).2.2 hm
    rcases hfs with rfl | rfl
    · rw [ht.1, if_pos hc, ht.2, if_pos hc]
    · rw [ht.2, if_pos hc, ht.1, if_pos hc]
  · push_neg at htouch
    have h0 : roundPerm insts x = x := roundPerm_eq_self_of htouch
    rw [h0, h0]

/-- The write-back loop of `apply_swaps_round`. -/
def writeAll {α : Type} : List (ℕ × ℕ × α × α) → List α → List α
  | [], acc => acc
  | r :: rs, acc => writeAll rs ((acc.set r.1 r.2.2.1).set r.2.1 r.2.2.2)

lemma applySwapsRound_eq_writeAll {α : Type} [Inhabited α] (l : List α)
    (insts : List MaybeSwap) :
    applySwapsRound l insts = writeAll
      (insts.map fun inst => (inst.firstIndex, inst.secondIndex,
        swapIf inst.condition (l.getD inst.firstIndex default)
          (l.getD inst.secondIndex default))) l := by
  unfold applySwapsRound
  generalize (insts.map fun inst => (inst.firstIndex, inst.secondIndex,
    swapIf inst.condition (l.getD inst.firstIndex default)
      (l.getD inst.secondIndex default))) = rs
  induction rs generalizing l with
  | nil => rfl
  | cons r rs ih => rw [List.foldl_cons, writeAll, ih]

lemma writeAll_length {α : Type} :
    ∀ (rs : List (ℕ × ℕ × α × α)) (acc : List α),
      (writeAll rs acc).length = acc.length := by
  intro rs
  induction rs with
  | nil => intro acc; rfl
  | cons r rs ih =>
    intro acc
    rw [writeAll, ih, List.length_set, List.length_set]

lemma writeAll_getElem?_untouched {α : Type} :
    ∀ (rs : List (ℕ × ℕ × α × α)) (acc : List α) (x : ℕ),
      (∀ r ∈ rs, r.1 ≠ x ∧ r.2.1 ≠ x) →
      (writeAll rs acc)[x]? = acc[x]? := by
  intro rs
  induction rs with
  | nil => intro acc x _; rfl
  | cons r rs ih =>
    intro acc x h
    have hr := h r (by simp)
    rw [writeAll, ih _ _ (fun r' h' => h r' (by simp [h'])),
      List.getElem?_set, if_neg hr.2, List.getElem?_set, if_neg hr.1]

lemma writeAll_getElem?_hit {α : Type} :
    ∀ (rs : List (ℕ × ℕ × α × α)) (acc : List α) (r : ℕ × ℕ × α × α),
      r ∈ rs →
      rs.Pairwise (fun r r' => r.1 ≠ r'.1 ∧ r.1 ≠ r'.2.1 ∧
        r.2.1 ≠ r'.1 ∧ r.2.1 ≠ r'.2.1) →
      r.1 ≠ r.2.1 → r.1 < acc.length → r.2.1 < acc.length →
      (writeAll rs acc)[r.1]? = some r.2.2.1 ∧
        (writeAll rs acc)[r.2.1]? = some r.2.2.2 := by
  intro rs
  induction rs with
  | nil => intro acc r hm; exact absurd hm (by simp)
  | cons hd tl ih =>
    intro acc r hm hpw hne h1 h2
    rw [List.pairwise_cons] at hpw
    rcases List.mem_cons.mp hm with rfl | hmtl
    · have huntl : ∀ y, r.1 = y ∨ r.2.1 = y →
          ∀ r' ∈ tl, r'.1 ≠ y ∧ r'.2.1 ≠ y := by
        intro y hy r' h'
        have := hpw.1 r' h'
        omega
      rw [writeAll]
      constructor
      · rw [writeAll_getElem?_untouched _ _ _ (huntl _ (Or.inl rfl)),
          List.getElem?_set, if_neg (Ne.symm hne), List.getElem?_set,
          if_pos rfl, if_pos h1]
      · rw [writeAll_getElem?_untouched _ _ _ (huntl _ (Or.inr rfl)),
          List.getElem?_set, if_pos rfl, if_pos (by simpa using h2)]
    · rw [writeAll]
      exact ih _ r hmtl hpw.2 hne (by simpa using h1) (by simpa using h2)

lemma applySwapsRound_length {α : Type} [Inhabited α] (l : List α)
    (insts : List MaybeSwap) :
    (applySwapsRound l insts).length = l.length := by
  rw [applySwapsRound_eq_writeAll, writeAll_length]

/-- Pointwise description of one application round: position `x` receives
the element previously at `roundPerm insts x`. -/
lemma applySwapsRound_getElem? {α : Type} [Inhabited α] (l : List α)
    (insts : List MaybeSwap) (hwf : WFRound l.length insts) (x : ℕ)
    (hx : x < l.length) :
    (applySwapsRound l insts)[x]? =
      some (l.getD (roundPerm insts x) default) := by
  rw [applySwapsRound_eq_writeAll]
  by_cases htouch : ∃ inst ∈ insts,
      inst.firstIndex = x ∨ inst.secondIndex = x
  · obtain ⟨inst, hm, hcase⟩ := htouch
    have h3 := hwf.1 inst hm
    have hpw : (insts.map fun inst => (inst.firstIndex, inst.secondIndex,
        swapIf inst.condition (l.getD inst.firstIndex default)
          (l.getD inst.secondIndex default))).Pairwise
        (fun r r' => r.1 ≠ r'.1 ∧ r.1 ≠ r'.2.1 ∧
          r.2.1 ≠ r'.1 ∧ r.2.1 ≠ r'.2.1) := by
      rw [List.pairwise_map]
      exact hwf.2.imp (fun h => h)
    have hhit := writeAll_getElem?_hit _ l _
      (List.mem_map_of_mem _ hm) hpw h3.2.2 (by simpa using h3.1)
      (by simpa using h3.2.1)
    have ht := roundPerm_touched hwf.2 h3.2.2 hm
    rcases hcase with rfl | rfl
    · rw [hhit.1, ht.1]
      cases hc : inst.condition <;> simp [swapIf, hc]
    · rw [hhit.2, ht.2]
      cases hc : inst.condition <;> simp [swapIf, hc]
  · push_neg at htouch
    rw [writeAll_getElem?_untouched _ _ _ (by
        intro r hr
        rw [List.mem_map] at hr
        obtain ⟨inst, hm, rfl⟩ := hr
        exact htouch inst hm),
      roundPerm_of_not_touched htouch, List.getElem?_eq_getElem hx,
      List.getD_eq_getElem _ _ hx]

/-- The permutation realized by a whole recorded schedule: position `x` of
the final arrangement holds the input element at index `schedPerm sched x`. -/
def schedPerm : List (List MaybeSwap) → ℕ → ℕ
  | [], x => x
  | r :: rest, x => roundPerm r (schedPerm rest x)

lemma schedPerm_lt {n : ℕ} : ∀ {sched : List (List MaybeSwap)},
    (∀ r ∈ sched, WFRound n r) → ∀ {x : ℕ}, x < n → schedPerm sched x < n := by
  intro sched
  induction sched with
  | nil => intro _ x hx; exact hx
  | cons r rest ih =>
    intro h x hx
    exact roundPerm_lt (h r (by simp)) (ih (fun r' h' => h r' (by simp [h'])) hx)

lemma schedPerm_injective {n : ℕ} : ∀ {sched : List (List MaybeSwap)},
    (∀ r ∈ sched, WFRound n r) → Function.Injective (schedPerm sched) := by
  intro sched
  induction sched with
  | nil => intro _ x y h; exact h
  | cons r rest ih =>
    intro h x y hxy
    exact ih (fun r' h' => h r' (by simp [h']))
      ((Function.Involutive.injective
        (roundPerm_involutive (h r (by simp)))) hxy)

lemma applySwaps_spec {α : Type} [Inhabited α] :
    ∀ (sched : List (List MaybeSwap)) (l : List α),
      (∀ r ∈ sched, WFRound l.length r) →
      (applySwaps l sched).length = l.length ∧
      ∀ x, x < l.length → (applySwaps l sched)[x]? =
        some (l.getD (schedPerm sched x) default) := by
  intro sched
  induction sched with
  | nil =>
    intro l _
    refine ⟨rfl, fun x hx => ?_⟩
    show l[x]? = some (l.getD x default)
    rw [List.getElem?_eq_getElem hx, List.getD_eq_getElem _ _ hx]
  | cons r rest ih =>
    intro l h
    have hr : WFRound l.length r := h r (by simp)
    have hlen := applySwapsRound_length l r
    have hstep : applySwaps l (r :: rest) =
        applySwaps (applySwapsRound l r) rest := rfl
    have ihr := ih (applySwapsRound l r)
      (by rw [hlen]; exact fun r' h' => h r' (by simp [h']))
    refine ⟨by rw [hstep, ihr.1, hlen], fun x hx => ?_⟩
    have hy : schedPerm rest x < l.length :=
      schedPerm_lt (fun r' h' => h r' (by simp [h'])) hx
    rw [hstep, ihr.2 x (by rw [hlen]; exact hx)]
    have := applySwapsRound_getElem? l r hr (schedPerm rest x) hy
    rw [List.getD_eq_getElem?_getD, this]
    rfl

/-- One generated-and-applied round moves values exactly as the comparator
round `netRound` does on the opened-value function. -/
lemma getD_roundPerm_sortRoundInsts (l : List ℤ) (n p k : ℕ) (hk : 0 < k)
    (x : ℕ) :
    l.getD (roundPerm (sortRoundInsts l n p k) x) 0 =
      netRound n p k (fun y => l.getD y 0) x := by
  have hwf := sortRoundInsts_wf l n p k hk
  unfold netRound
  by_cases h1 : SwapCond n p k x
  · rw [if_pos h1]
    have hm : (⟨x, x + k, decide (l.getD (x + k) 0 < l.getD x 0)⟩ :
        MaybeSwap) ∈ sortRoundInsts l n p k :=
      (mem_sortRoundInsts).mpr ⟨x, h1, rfl⟩
    have ht := (roundPerm_touched hwf.2 (by simp only; omega) hm).1
    simp only at ht
    rw [ht]
    by_cases hlt : l.getD (x + k) 0 < l.getD x 0
    · rw [decide_eq_true hlt, if_pos rfl, (min_eq_right hlt.le).symm]
    · rw [decide_eq_false hlt, if_neg (by simp),
        (min_eq_left (not_lt.mp hlt)).symm]
  · rw [if_neg h1]
    by_cases h2 : k ≤ x ∧ SwapCond n p k (x - k)
    · rw [if_pos h2]
      obtain ⟨hkx, hsc⟩ := h2
      have hm : (⟨x - k, x - k + k,
          decide (l.getD (x - k + k) 0 < l.getD (x - k) 0)⟩ :
          MaybeSwap) ∈ sortRoundInsts l n p k :=
        (mem_sortRoundInsts).mpr ⟨x - k, hsc, rfl⟩
      have hxk : x - k + k = x := by omega
      rw [hxk] at hm
      have ht := (roundPerm_touched hwf.2 (by simp only; omega) hm).2
      simp only at ht
      rw [ht]
      by_cases hlt : l.getD x 0 < l.getD (x - k) 0
      · rw [decide_eq_true hlt, if_pos rfl, (max_eq_left hlt.le).symm]
      · rw [decide_eq_false hlt, if_neg (by simp),
        (max_eq_right (not_lt.mp hlt)).symm]
    · rw [if_neg h2]
      rw [roundPerm_of_not_touched]
      intro i hi
      rw [mem_sortRoundInsts] at hi
      obtain ⟨y, hcy, rfl⟩ := hi
      simp only
      constructor
      · intro he
        exact h1 (he ▸ hcy)
      · intro he
        have hyx : y = x - k := by omega
        exact h2 ⟨by omega, hyx ▸ hcy⟩

/-- The state-and-schedule fold performed by `sort`. -/
def sortFold (n : ℕ) (ps : List (ℕ × ℕ))
    (st : List ℤ × List (List MaybeSwap)) :
    List ℤ × List (List MaybeSwap) :=
  ps.foldl (fun st sp =>
    let insts := sortRoundInsts st.1 n sp.1 sp.2
    (applySwapsRound st.1 insts, st.2 ++ [insts])) st

lemma sortRun_eq_sortFold (elems : List ℤ) :
    sortRun elems = sortFold elems.length (sortSchedule elems.length)
      (elems, []) := rfl

lemma sortFold_cons (n : ℕ) (sp : ℕ × ℕ) (ps : List (ℕ × ℕ))
    (st : List ℤ × List (List MaybeSwap)) :
    sortFold n (sp :: ps) st = sortFold n ps
      (applySwapsRound st.1 (sortRoundInsts st.1 n sp.1 sp.2),
        st.2 ++ [sortRoundInsts st.1 n sp.1 sp.2]) := rfl

lemma sortFold_acc : ∀ (ps : List (ℕ × ℕ)) (l : List ℤ)
    (acc : List (List MaybeSwap)) (n : ℕ),
    sortFold n ps (l, acc) =
      ((sortFold n ps (l, [])).1, acc ++ (sortFold n ps (l, [])).2) := by
  intro ps
  induction ps with
  | nil => intro l acc n; simp [sortFold]
  | cons sp ps ih =>
    intro l acc n
    rw [sortFold_cons, sortFold_cons]
    simp only
    rw [ih _ (acc ++ _), ih _ ([] ++ _)]
    simp

lemma sortFold_length : ∀ (ps : List (ℕ × ℕ)) (l : List ℤ)
    (acc : List (List MaybeSwap)) (n : ℕ),
    (sortFold n ps (l, acc)).1.length = l.length := by
  intro ps
  induction ps with
  | nil => intro l acc n; rfl
  | cons sp ps ih =>
    intro l acc n
    rw [sortFold_cons]
    simp only
    rw [ih, applySwapsRound_length]

lemma sortFold_wf : ∀ (ps : List (ℕ × ℕ)) (l : List ℤ) (n : ℕ),
    l.length = n → (∀ sp ∈ ps, 0 < sp.2) →
    ∀ r ∈ (sortFold n ps (l, [])).2, WFRound n r := by
  intro ps
  induction ps with
  | nil => intro l n _ _ r hr; exact absurd hr (by simp [sortFold])
  | cons sp ps ih =>
    intro l n hl hps r hr
    rw [sortFold_cons] at hr
    simp only at hr
    rw [sortFold_acc] at hr
    simp only [List.mem_append] at hr
    rcases hr with hr | hr
    · rcases hr with hr | hr
      · exact absurd hr (by simp)
      · rw [List.mem_singleton] at hr
        subst hr
        exact hl ▸ sortRoundInsts_wf l n sp.1 sp.2 (hps sp (by simp))
    · exact ih _ n (by rw [applySwapsRound_length, hl])
        (fun sp' h' => hps sp' (by simp [h'])) r hr

lemma sortFold_applySwaps : ∀ (ps : List (ℕ × ℕ)) (l : List ℤ) (n : ℕ),
    applySwaps l (sortFold n ps (l, [])).2 = (sortFold n ps (l, [])).1 := by
  intro ps
  induction ps with
  | nil => intro l n; rfl
  | cons sp ps ih =>
    intro l n
    rw [sortFold_cons]
    simp only
    rw [sortFold_acc]
    simp only [List.nil_append]
    have : applySwaps l ([sortRoundInsts l n sp.1 sp.2] ++
        (sortFold n ps (applySwapsRound l (sortRoundInsts l n sp.1 sp.2),
          [])).2) = applySwaps
            (applySwapsRound l (sortRoundInsts l n sp.1 sp.2))
            (sortFold n ps (applySwapsRound l (sortRoundInsts l n sp.1 sp.2),
              [])).2 := rfl
    rw [this, ih]

lemma netRound_congrOn (n p k : ℕ) (v w : ℕ → ℤ)
    (h : ∀ y, y < n → v y = w y) (x : ℕ) (hx : x < n) :
    netRound n p k v x = netRound n p k w x := by
  unfold netRound
  by_cases h1 : SwapCond n p k x
  · rw [if_pos h1, if_pos h1, h x hx, h (x + k) h1.1]
  · rw [if_neg h1, if_neg h1]
    by_cases h2 : k ≤ x ∧ SwapCond n p k (x - k)
    · rw [if_pos h2, if_pos h2, h (x - k) (by omega), h x hx]
    · rw [if_neg h2, if_neg h2, h x hx]

lemma foldRounds_congrOn (n : ℕ) : ∀ (ps : List (ℕ × ℕ)) (v w : ℕ → ℤ),
    (∀ y, y < n → v y = w y) → ∀ x, x < n →
    (ps.foldl (fun u sp => netRound n sp.1 sp.2 u) v) x =
      (ps.foldl (fun u sp => netRound n sp.1 sp.2 u) w) x := by
  intro ps
  induction ps with
  | nil => intro v w h x hx; exact h x hx
  | cons sp ps ih =>
    intro v w h x hx
    exact ih _ _ (fun y hy => netRound_congrOn n sp.1 sp.2 v w h y hy) x hx

/-- The list produced by the sorting fold opens, position by position, to
the comparator-network image of the input values. -/
lemma sortFold_getD : ∀ (ps : List (ℕ × ℕ)) (l : List ℤ) (n : ℕ),
    l.length = n → (∀ sp ∈ ps, 0 < sp.2) → ∀ x, x < n →
    (sortFold n ps (l, [])).1.getD x 0 =
      (ps.foldl (fun u sp => netRound n sp.1 sp.2 u)
        (fun y => l.getD y 0)) x := by
  intro ps
  induction ps with
  | nil => intro l n _ _ x _; rfl
  | cons sp ps ih =>
    intro l n hl hps x hx
    rw [sortFold_cons]
    simp only
    rw [sortFold_acc]
    simp only
    set l' := applySwapsRound l (sortRoundInsts l n sp.1 sp.2) with hl'
    have hlen' : l'.length = n := by rw [hl', applySwapsRound_length, hl]
    rw [List.foldl_cons]
    have hagr : ∀ y, y < n → l'.getD y 0 =
        netRound n sp.1 sp.2 (fun z => l.getD z 0) y := by
      intro y hy
      have hwf : WFRound l.length (sortRoundInsts l n sp.1 sp.2) :=
        hl ▸ sortRoundInsts_wf l n sp.1 sp.2 (hps sp (by simp))
      have hget := applySwapsRound_getElem? l
        (sortRoundInsts l n sp.1 sp.2) hwf y (by omega)
      rw [← hl'] at hget
      rw [List.getD_eq_getElem?_getD, hget, Option.getD_some]
      show l.getD (roundPerm (sortRoundInsts l n sp.1 sp.2) y) 0 = _
      exact getD_roundPerm_sortRoundInsts l n sp.1 sp.2
        (hps sp (by simp)) y
    rw [ih l' n hlen' (fun sp' h' => hps sp' (by simp [h'])) x hx]
    exact foldRounds_congrOn n ps _ _ hagr x hx

lemma mem_sortSchedule {n : ℕ} {sp : ℕ × ℕ} (h : sp ∈ sortSchedule n) :
    ∃ s t, t ≤ s ∧ sp = (2 ^ s, 2 ^ t) ∧ 2 ^ s < n := by
  unfold sortSchedule at h
  rw [List.mem_flatMap] at h
  obtain ⟨s, hs, hsp⟩ := h
  rw [List.mem_filter, decide_eq_true_eq] at hs
  rw [List.mem_map] at hsp
  obtain ⟨t, ht, rfl⟩ := hsp
  rw [List.mem_reverse, List.mem_range] at ht
  exact ⟨s, t, by omega, rfl, hs.2⟩

lemma decide_min (p q : Prop) [Decidable p] [Decidable q] :
    min (decide p) (decide q) = decide (p ∧ q) := by
  by_cases hp : p <;> by_cases hq : q <;> simp [hp, hq]

lemma decide_max (p q : Prop) [Decidable p] [Decidable q] :
    max (decide p) (decide q) = decide (p ∨ q) := by
  by_cases hp : p <;> by_cases hq : q <;> simp [hp, hq]

/-- A monotone Boolean sequence on an initial segment is a threshold
sequence. -/
lemma exists_threshold (u : ℕ → Bool) (len : ℕ)
    (h : ∀ i j, i ≤ j → j < len → u i ≤ u j) :
    ∃ z, z ≤ len ∧ ∀ i, i < len → u i = decide (z ≤ i) := by
  by_cases he : ∃ i, i < len ∧ u i = true
  · have hfind := Nat.find_spec he
    refine ⟨Nat.find he, by omega, fun i hi => ?_⟩
    by_cases hz : Nat.find he ≤ i
    · rw [decide_eq_true hz]
      have := h (Nat.find he) i hz hi
      rw [hfind.2] at this
      cases hu : u i
      · rw [hu] at this
        exact absurd this (by simp)
      · rfl
    · rw [decide_eq_false hz]
      have := Nat.find_min he (show i < Nat.find he by omega)
      simp only [not_and] at this
      cases hu : u i
      · rfl
      · exact absurd (this hi) (by simp [hu])
  · push_neg at he
    refine ⟨len, le_refl _, fun i hi => ?_⟩
    rw [decide_eq_false (by omega)]
    cases hu : u i
    · rfl
    · exact absurd hu (by simpa using he i hi)

lemma threshold_sorted (u : ℕ → Bool) (len z : ℕ)
    (h : ∀ i, i < len → u i = decide (z ≤ i)) :
    ∀ i j, i ≤ j → j < len → u i ≤ u j := by
  intro i j hij hj
  rw [h i (by omega), h j hj]
  by_cases hz : z ≤ i
  · rw [decide_eq_true hz, decide_eq_true (by omega)]
  · rw [decide_eq_false hz]
    exact Bool.false_le _

/-- Effect of one odd-even compare layer on the interleaving of two
balanced sorted 0-1 chains: the result is the sorted chain whose zero
count is the sum of the two. -/
lemma oddEvenLayer (M z1 z2 : ℕ) (u : ℕ → Bool) (h21 : z2 ≤ z1)
    (h12 : z1 ≤ z2 + 2) (h1M : z1 ≤ M)
    (hu : ∀ t, t < M → u (2 * t) = decide (z1 ≤ t) ∧
      u (2 * t + 1) = decide (z2 ≤ t))
    (j : ℕ) (hj : j < M * 2) :
    (if j % 2 = 1 ∧ j + 1 < M * 2 then min (u j) (u (j + 1))
     else if j % 2 = 0 ∧ 1 ≤ j then max (u (j - 1)) (u j)
     else u j) = decide (z1 + z2 ≤ j) := by
  rcases Nat.even_or_odd j with ⟨t, ht⟩ | ⟨t, ht⟩
  · subst ht
    have h2t : t + t = 2 * t := by omega
    rw [h2t] at hj ⊢
    rcases Nat.eq_zero_or_pos t with rfl | htpos
    · rw [if_neg (by omega), if_neg (by omega)]
      rw [(hu 0 (by omega)).1, decide_eq_decide]
      omega
    · rw [if_neg (by omega), if_pos (by omega)]
      have h1 := (hu (t - 1) (by omega)).2
      have h2 := (hu t (by omega)).1
      rw [show 2 * t - 1 = 2 * (t - 1) + 1 from by omega, h1, h2,
        decide_max, decide_eq_decide]
      omega
  · subst ht
    by_cases hlast : 2 * t + 1 + 1 < M * 2
    · rw [if_pos ⟨by omega, hlast⟩]
      have h1 := (hu t (by omega)).2
      have h2 := (hu (t + 1) (by omega)).1
      rw [show 2 * t + 1 + 1 = 2 * (t + 1) from by omega, h2, h1,
        decide_min, decide_eq_decide]
      omega
    · rw [if_neg (by omega), if_neg (by omega)]
      rw [(hu t (by omega)).2, decide_eq_decide]
      omega

lemma coord_mod {p k : ℕ} (m c j : ℕ) (hkd : k ∣ p) (hc : c < k) :
    (p * 2 * m + c + k * j) % (k * 2) = c + k * (j % 2) := by
  obtain ⟨d, rfl⟩ := hkd
  have hj := Nat.div_add_mod j 2
  have hsplit : k * d * 2 * m + c + k * j =
      c + k * (j % 2) + (k * 2) * (j / 2 + d * m) := by
    calc k * d * 2 * m + c + k * j
        = k * d * 2 * m + c + k * (2 * (j / 2) + j % 2) := by rw [hj]
      _ = c + k * (j % 2) + (k * 2) * (j / 2 + d * m) := by ring
  rw [hsplit, Nat.add_mul_mod_self_left,
    Nat.mod_eq_of_lt (show c + k * (j % 2) < k * 2 by
      have : j % 2 < 2 := Nat.mod_lt _ (by omega)
      have : k * (j % 2) ≤ k * 1 := Nat.mul_le_mul_left _ (by omega)
      omega)]

lemma coord_div {p k : ℕ} (m c j : ℕ) (hp : 0 < p) (hlt : c + k * j < p * 2) :
    (p * 2 * m + c + k * j) / (p * 2) = m := by
  have hsplit : p * 2 * m + c + k * j = c + k * j + p * 2 * m := by ring
  rw [hsplit, Nat.add_mul_div_left _ _ (by omega),
    Nat.div_eq_of_lt hlt, Nat.zero_add]

lemma coord_div_hi {p k : ℕ} (m c j : ℕ) (hp : 0 < p)
    (hlo : p * 2 ≤ c + k * j) (hhi : c + k * j < p * 2 * 2) :
    (p * 2 * m + c + k * j) / (p * 2) = m + 1 := by
  have hsplit : p * 2 * m + c + k * j = c + k * j + p * 2 * m := by ring
  rw [hsplit, Nat.add_mul_div_left _ _ (by omega),
    Nat.div_eq_of_lt_le (show 1 * (p * 2) ≤ c + k * j by omega)
      (show c + k * j < (1 + 1) * (p * 2) by omega), Nat.add_comm]

/-- Characterization of `SwapCond` in block-chain coordinates, for a phase
with `step < segment`. -/
lemma swapCond_coord {n p k M : ℕ} (m c j : ℕ) (hkp : k < p)
    (hkd : k ∣ p) (hsz : k * (M * 2) = p * 2)
    (hbn : p * 2 * m + p * 2 ≤ n) (hc : c < k) (hj : j < M * 2) :
    SwapCond n p k (p * 2 * m + c + k * j) ↔
      (j % 2 = 1 ∧ j + 1 < M * 2) := by
  have hp : 0 < p := by omega
  have hkp' : k % p = k := Nat.mod_eq_of_lt hkp
  have hmod := coord_mod (p := p) (k := k) m c j hkd hc
  have hmul : ∀ j', j' + 1 ≤ M * 2 → c + k * j' < p * 2 := by
    intro j' hj'
    have h1 : k * (j' + 1) ≤ k * (M * 2) := Nat.mul_le_mul_left _ hj'
    have h2 : k * (j' + 1) = k * j' + k := by ring
    omega
  have hxk : p * 2 * m + c + k * j + k = p * 2 * m + c + k * (j + 1) := by
    have : k * (j + 1) = k * j + k := by ring
    omega
  constructor
  · rintro ⟨hbound, hw1, hw2, hblk⟩
    rw [hmod, hkp'] at hw1
    have hpar : j % 2 = 1 := by
      rcases Nat.mod_two_eq_zero_or_one j with h | h
      · rw [h, Nat.mul_zero] at hw1
        omega
      · exact h
    refine ⟨hpar, ?_⟩
    by_contra hge
    have hj1 : j + 1 = M * 2 := by omega
    rw [hxk, hj1] at hblk
    rw [coord_div m c j hp (hmul j (by omega)),
      coord_div_hi m c (M * 2) hp (by rw [hsz]; omega) (by omega)] at hblk
    omega
  · rintro ⟨hpar, hj1⟩
    have hb2 := hmul (j + 1) (by omega)
    have hmulsucc : k * (j + 1) = k * j + k := by ring
    refine ⟨by omega, ?_, ?_, ?_⟩
    · rw [hmod, hkp', hpar, Nat.mul_one]
      omega
    · rw [hmod, hkp', hpar, Nat.mul_one]
      omega
    · rw [hxk, coord_div m c j hp (hmul j (by omega)),
        coord_div m c (j + 1) hp hb2]

/-- Characterization of `SwapCond` in block coordinates for the first
phase of a segment (`step = segment`). -/
lemma swapCond_coord_self {n p : ℕ} (m c j : ℕ) (hp : 0 < p)
    (hbn : p * 2 * m + p * 2 ≤ n) (hc : c < p) (hj : j < 2) :
    SwapCond n p p (p * 2 * m + c + p * j) ↔ j = 0 := by
  have hpp : p % p = 0 := Nat.mod_self p
  constructor
  · intro hsc
    by_contra h0
    have hj1 : j = 1 := by omega
    subst hj1
    obtain ⟨hb, hw1, hw2, hblk⟩ := hsc
    have hxm1 : (p * 2 * m + c + p * 1) % (p * 2) = c + p := by
      rw [Nat.mul_one,
        show p * 2 * m + c + p = c + p + p * 2 * m by ring,
        Nat.add_mul_mod_self_left, Nat.mod_eq_of_lt (by omega)]
    rw [hxm1, hpp] at hw2
    omega
  · rintro rfl
    rw [Nat.mul_zero, Nat.add_zero]
    have hxm : (p * 2 * m + c) % (p * 2) = c := by
      rw [show p * 2 * m + c = c + p * 2 * m by ring,
        Nat.add_mul_mod_self_left, Nat.mod_eq_of_lt (by omega)]
    refine ⟨by omega, ?_, ?_, ?_⟩
    · rw [hxm, hpp]
      omega
    · rw [hxm, hpp]
      omega
    · have h1 : (p * 2 * m + c) / (p * 2) = m := by
        rw [show p * 2 * m + c = c + p * 2 * m by ring,
          Nat.add_mul_div_left _ _ (by omega), Nat.div_eq_of_lt (by omega),
          Nat.zero_add]
      have h2 : (p * 2 * m + c + p) / (p * 2) = m := by
        rw [show p * 2 * m + c + p = c + p + p * 2 * m by ring,
          Nat.add_mul_div_left _ _ (by omega), Nat.div_eq_of_lt (by omega),
          Nat.zero_add]
      rw [h1, h2]

/-- `netRound` in block-chain coordinates, for a phase with
`step < segment`: within each chain it is the odd-even compare layer. -/
lemma netRound_coord {α : Type} [LinearOrder α] {n p k M : ℕ} (m c j : ℕ)
    (w : ℕ → α)
    (hkp : k < p) (hkd : k ∣ p) (hsz : k * (M * 2) = p * 2)
    (hbn : p * 2 * m + p * 2 ≤ n) (hc : c < k) (hj : j < M * 2) :
    netRound n p k w (p * 2 * m + c + k * j) =
      (if j % 2 = 1 ∧ j + 1 < M * 2
        then min (w (p * 2 * m + c + k * j))
          (w (p * 2 * m + c + k * (j + 1)))
       else if j % 2 = 0 ∧ 1 ≤ j
        then max (w (p * 2 * m + c + k * (j - 1)))
          (w (p * 2 * m + c + k * j))
       else w (p * 2 * m + c + k * j)) := by
  have hxk : p * 2 * m + c + k * j + k = p * 2 * m + c + k * (j + 1) := by
    have : k * (j + 1) = k * j + k := by ring
    omega
  unfold netRound
  by_cases h1 : j % 2 = 1 ∧ j + 1 < M * 2
  · rw [if_pos ((swapCond_coord m c j hkp hkd hsz hbn hc hj).mpr h1),
      if_pos h1, hxk]
  · rw [if_neg (fun hsc =>
      h1 ((swapCond_coord m c j hkp hkd hsz hbn hc hj).mp hsc))]
    by_cases h2 : j % 2 = 0 ∧ 1 ≤ j
    · have h3 : k * (j - 1) + k = k * j := by
        have hj1 : j - 1 + 1 = j := by omega
        calc k * (j - 1) + k = k * ((j - 1) + 1) := by ring
          _ = k * j := by rw [hj1]
      have hsub : p * 2 * m + c + k * j - k =
          p * 2 * m + c + k * (j - 1) := by omega
      have hklex : k ≤ p * 2 * m + c + k * j := by omega
      rw [if_pos ⟨hklex, by
          rw [hsub]
          exact (swapCond_coord m c (j - 1) hkp hkd hsz hbn hc
            (by omega)).mpr ⟨by omega, by omega⟩⟩, if_neg h1, if_pos h2,
        hsub]
    · have hsecond : ¬(k ≤ p * 2 * m + c + k * j ∧
          SwapCond n p k (p * 2 * m + c + k * j - k)) := by
        rcases Nat.eq_zero_or_pos j with rfl | hjpos
        · rcases Nat.eq_zero_or_pos m with rfl | hmpos
          · rintro ⟨hle, -⟩
            omega
          · have hM : 0 < M := by omega
            have e1 : p * 2 * (m - 1) + p * 2 = p * 2 * m := by
              have hm1 : m - 1 + 1 = m := by omega
              calc p * 2 * (m - 1) + p * 2 = p * 2 * ((m - 1) + 1) := by
                    ring
                _ = p * 2 * m := by rw [hm1]
            have e2 : k * (M * 2 - 1) + k = k * (M * 2) := by
              have hM1 : M * 2 - 1 + 1 = M * 2 := by omega
              calc k * (M * 2 - 1) + k = k * ((M * 2 - 1) + 1) := by ring
                _ = k * (M * 2) := by rw [hM1]
            rintro ⟨hle, hsc⟩
            have hk0 : k * 0 = 0 := by ring
            have hsub0 : p * 2 * m + c + k * 0 - k =
                p * 2 * (m - 1) + c + k * (M * 2 - 1) := by omega
            rw [hsub0] at hsc
            have := (swapCond_coord (m - 1) c (M * 2 - 1) hkp hkd hsz
              (by omega) hc (by omega)).mp hsc
            omega
        · have h3 : k * (j - 1) + k = k * j := by
            have hj1 : j - 1 + 1 = j := by omega
            calc k * (j - 1) + k = k * ((j - 1) + 1) := by ring
              _ = k * j := by rw [hj1]
          rintro ⟨hle, hsc⟩
          have hsub : p * 2 * m + c + k * j - k =
              p * 2 * m + c + k * (j - 1) := by omega
          rw [hsub] at hsc
          have := (swapCond_coord m c (j - 1) hkp hkd hsz hbn hc
            (by omega)).mp hsc
          omega
      rw [if_neg hsecond, if_neg h1, if_neg h2]

/-- `netRound` in block coordinates for the first phase of a segment
(`step = segment`): it compares the two halves of each block pointwise. -/
lemma netRound_coord_self {α : Type} [LinearOrder α] {n p : ℕ} (m c j : ℕ)
    (w : ℕ → α) (hp : 0 < p) (hbn : p * 2 * m + p * 2 ≤ n) (hc : c < p)
    (hj : j < 2) :
    netRound n p p w (p * 2 * m + c + p * j) =
      if j = 0 then min (w (p * 2 * m + c)) (w (p * 2 * m + c + p))
      else max (w (p * 2 * m + c)) (w (p * 2 * m + c + p)) := by
  have hsc0 : SwapCond n p p (p * 2 * m + c) := by
    have := (swapCond_coord_self m c 0 hp hbn hc (by omega)).mpr rfl
    rwa [show p * 2 * m + c + p * 0 = p * 2 * m + c by ring] at this
  have hj01 : j = 0 ∨ j = 1 := by omega
  unfold netRound
  rcases hj01 with rfl | rfl
  · rw [show p * 2 * m + c + p * 0 = p * 2 * m + c by ring,
      if_pos hsc0, if_pos rfl]
  · rw [show p * 2 * m + c + p * 1 = p * 2 * m + c + p by ring]
    have hns : ¬SwapCond n p p (p * 2 * m + c + p) := by
      intro hsc
      have := (swapCond_coord_self m c 1 hp hbn hc (by omega)).mp
        (by rwa [show p * 2 * m + c + p * 1 = p * 2 * m + c + p by ring])
      omega
    have hsub : p * 2 * m + c + p - p = p * 2 * m + c := by omega
    rw [if_neg hns, if_pos ⟨by omega, by rw [hsub]; exact hsc0⟩, hsub,
      if_neg (by omega)]

/-- Invariant of the merge phases on one block of the 0-1 network: all
chains modulo `k` are sorted (as threshold sequences `z`), the zero counts
are antitone across chains, and the extreme chains differ by at most 2. -/
def InvBlock (w : ℕ → Bool) (b k clen : ℕ) : Prop :=
  ∃ z : ℕ → ℕ, (∀ c, c < k → z c ≤ clen) ∧
    (∀ c c', c ≤ c' → c' < k → z c' ≤ z c) ∧
    z 0 ≤ z (k - 1) + 2 ∧
    (∀ c i, c < k → i < clen → w (b + c + k * i) = decide (z c ≤ i))

/-- A merge phase with `step < segment` halves the chain modulus while
preserving the invariant. -/
lemma invBlock_step {n p k M m : ℕ} (w : ℕ → Bool) (hkp : k < p)
    (hkd : k ∣ p) (hsz : k * (M * 2) = p * 2)
    (hbn : p * 2 * m + p * 2 ≤ n)
    (hinv : InvBlock w (p * 2 * m) (k * 2) M) :
    InvBlock (netRound n p k w) (p * 2 * m) k (M * 2) := by
  have hk : 0 < k := by
    rcases Nat.eq_zero_or_pos k with rfl | h
    · simp at hsz
      omega
    · exact h
  obtain ⟨z, hzb, hza, hzs, hzp⟩ := hinv
  refine ⟨fun c => z c + z (c + k), ?_, ?_, ?_, ?_⟩
  · intro c hck
    show z c + z (c + k) ≤ M * 2
    have h1 := hzb c (by omega)
    have h2 := hzb (c + k) (by omega)
    omega
  · intro c c' hcc hc'
    show z c' + z (c' + k) ≤ z c + z (c + k)
    have h1 := hza c c' hcc (by omega)
    have h2 := hza (c + k) (c' + k) (by omega) (by omega)
    omega
  · show z 0 + z (0 + k) ≤ z (k - 1) + z (k - 1 + k) + 2
    have h2 := hza (k - 1) k (by omega) (by omega)
    have h3 := hza (k - 1 + k) (k * 2 - 1) (by omega) (by omega)
    have h4 := hza 0 0 (by omega) (by omega)
    have h5 : 0 + k = k := by omega
    rw [h5]
    omega
  · intro c i hck hi
    rw [netRound_coord m c i w hkp hkd hsz hbn hck hi]
    have hu : ∀ t, t < M →
        (fun j => w (p * 2 * m + c + k * j)) (2 * t) = decide (z c ≤ t) ∧
        (fun j => w (p * 2 * m + c + k * j)) (2 * t + 1) =
          decide (z (c + k) ≤ t) := by
      intro t ht
      constructor
      · show w (p * 2 * m + c + k * (2 * t)) = _
        rw [show p * 2 * m + c + k * (2 * t) =
          p * 2 * m + c + k * 2 * t by ring]
        exact hzp c t (by omega) ht
      · show w (p * 2 * m + c + k * (2 * t + 1)) = _
        rw [show p * 2 * m + c + k * (2 * t + 1) =
          p * 2 * m + (c + k) + k * 2 * t by ring]
        exact hzp (c + k) t (by omega) ht
    exact oddEvenLayer M (z c) (z (c + k))
      (fun j => w (p * 2 * m + c + k * j))
      (hza c (c + k) (by omega) (by omega))
      (by
        have h1 := hza 0 c (by omega) (by omega)
        have h2 := hza (c + k) (k * 2 - 1) (by omega) (by omega)
        omega)
      (hzb c (by omega)) hu i hi

/-- The first phase of a segment turns two sorted halves into sorted
chains modulo `segment` with balanced zero counts. -/
lemma invBlock_first {n p m : ℕ} (w : ℕ → Bool) (hp : 0 < p)
    (hbn : p * 2 * m + p * 2 ≤ n)
    (hs1 : ∀ i j, i ≤ j → j < p → w (p * 2 * m + i) ≤ w (p * 2 * m + j))
    (hs2 : ∀ i j, i ≤ j → j < p →
      w (p * 2 * m + p + i) ≤ w (p * 2 * m + p + j)) :
    InvBlock (netRound n p p w) (p * 2 * m) p 2 := by
  obtain ⟨za, hzab, hzap⟩ :=
    exists_threshold (fun i => w (p * 2 * m + i)) p hs1
  obtain ⟨zb, hzbb, hzbp⟩ :=
    exists_threshold (fun i => w (p * 2 * m + p + i)) p hs2
  refine ⟨fun c => (if c < min za zb then 1 else 0) +
    (if c < max za zb then 1 else 0), ?_, ?_, ?_, ?_⟩
  · intro c hc
    show (if c < min za zb then 1 else 0) +
      (if c < max za zb then 1 else 0) ≤ 2
    split_ifs <;> omega
  · intro c c' hcc hc'
    show (if c' < min za zb then 1 else 0) +
        (if c' < max za zb then 1 else 0) ≤
      (if c < min za zb then 1 else 0) + (if c < max za zb then 1 else 0)
    split_ifs <;> omega
  · show (if 0 < min za zb then 1 else 0) +
        (if 0 < max za zb then 1 else 0) ≤
      (if p - 1 < min za zb then 1 else 0) +
        (if p - 1 < max za zb then 1 else 0) + 2
    split_ifs <;> omega
  · intro c i hc hi
    rw [netRound_coord_self m c i w hp hbn hc hi]
    have ha := hzap c hc
    have hb := hzbp c hc
    simp only at ha hb
    have hi01 : i = 0 ∨ i = 1 := by omega
    rcases hi01 with rfl | rfl
    · rw [if_pos rfl,
        show p * 2 * m + c + p = p * 2 * m + p + c by ring, ha, hb,
        decide_min]
      show _ = decide ((if c < min za zb then 1 else 0) +
        (if c < max za zb then 1 else 0) ≤ 0)
      rw [decide_eq_decide]
      simp only [lt_min_iff, lt_max_iff]
      split_ifs <;> omega
    · rw [if_neg (by omega),
        show p * 2 * m + c + p = p * 2 * m + p + c by ring, ha, hb,
        decide_max]
      show _ = decide ((if c < min za zb then 1 else 0) +
        (if c < max za zb then 1 else 0) ≤ 1)
      rw [decide_eq_decide]
      simp only [lt_min_iff, lt_max_iff]
      split_ifs <;> omega

/-- The inner `while step >= 1` loop of a segment, over a list of step
exponents. -/
def foldPhases {α : Type} [LinearOrder α] (n p : ℕ) (ts : List ℕ)
    (w : ℕ → α) : ℕ → α :=
  ts.foldl (fun w' t => netRound n p (2 ^ t) w') w

/-- The outer `while segment < n` loop, over a list of segment
exponents. -/
def segFold {α : Type} [LinearOrder α] (n : ℕ) (ss : List ℕ)
    (v : ℕ → α) : ℕ → α :=
  ss.foldl (fun w s => foldPhases n (2 ^ s) ((List.range (s + 1)).reverse) w) v

lemma foldl_flatMap {α β γ : Type} (l : List α) (f : α → List β)
    (g : γ → β → γ) (init : γ) :
    (l.flatMap f).foldl g init =
      l.foldl (fun a x => (f x).foldl g a) init := by
  induction l generalizing init with
  | nil => rfl
  | cons x xs ih =>
    rw [List.flatMap_cons, List.foldl_append, ih, List.foldl_cons]

lemma applyScheduleF_eq {α : Type} [LinearOrder α] (n : ℕ) (v : ℕ → α) :
    applyScheduleF n v =
      segFold n ((List.range n).filter fun s => decide (2 ^ s < n)) v := by
  unfold applyScheduleF sortSchedule segFold foldPhases
  rw [foldl_flatMap]
  congr 1
  funext w s
  rw [List.foldl_map]

/-- Processing the phases `step = 2 ^ (t-1), ..., 1` of a segment takes
the chain invariant modulo `2 ^ t` down to a single sorted chain. -/
lemma mergeDown {n : ℕ} (s : ℕ) :
    ∀ t, t ≤ s → ∀ (w : ℕ → Bool) (m : ℕ),
      2 ^ s * 2 * m + 2 ^ s * 2 ≤ n →
      InvBlock w (2 ^ s * 2 * m) (2 ^ t) (2 ^ (s + 1 - t)) →
      InvBlock (foldPhases n (2 ^ s) ((List.range t).reverse) w)
        (2 ^ s * 2 * m) 1 (2 ^ (s + 1)) := by
  intro t
  induction t with
  | zero =>
    intro _ w m _ hinv
    exact hinv
  | succ t ih =>
    intro hts w m hbn hinv
    have hrev : (List.range (t + 1)).reverse =
        t :: (List.range t).reverse := by
      rw [List.range_succ, List.reverse_append]
      rfl
    rw [hrev]
    have hstep : foldPhases n (2 ^ s) (t :: (List.range t).reverse) w =
        foldPhases n (2 ^ s) ((List.range t).reverse)
          (netRound n (2 ^ s) (2 ^ t) w) := rfl
    rw [hstep]
    apply ih (by omega) _ m hbn
    have e1 : (2 : ℕ) ^ (t + 1) = 2 ^ t * 2 := pow_succ 2 t
    have e2 : s + 1 - (t + 1) = s - t := by omega
    have e3 : (2 : ℕ) ^ t * 2 ^ (s - t) = 2 ^ s := by
      rw [← pow_add]
      congr 1
      omega
    have e4 : (2 : ℕ) ^ (s + 1 - t) = 2 ^ (s - t) * 2 := by
      rw [← pow_succ]
      congr 1
      omega
    rw [e1, e2] at hinv
    have hst := invBlock_step (n := n) (p := 2 ^ s) (k := 2 ^ t)
      (M := 2 ^ (s - t)) (m := m) w
      (Nat.pow_lt_pow_right (by norm_num) (by omega))
      (pow_dvd_pow 2 (by omega))
      (by rw [← mul_assoc, e3]) hbn hinv
    rwa [← e4] at hst

/-- All aligned blocks of a given size below `n` are sorted. -/
def blocksSorted (n sz : ℕ) (w : ℕ → Bool) : Prop :=
  ∀ m, sz * m + sz ≤ n → ∀ i j, i ≤ j → j < sz →
    w (sz * m + i) ≤ w (sz * m + j)

/-- One full segment of phases merges pairs of sorted blocks. -/
lemma segment_step {n : ℕ} (s : ℕ) (w : ℕ → Bool)
    (hsorted : blocksSorted n (2 ^ s) w) :
    blocksSorted n (2 ^ (s + 1))
      (foldPhases n (2 ^ s) ((List.range (s + 1)).reverse) w) := by
  intro m hm i j hij hj
  have e0 : (2 : ℕ) ^ (s + 1) = 2 ^ s * 2 := pow_succ 2 s
  have hrev : (List.range (s + 1)).reverse =
      s :: (List.range s).reverse := by
    rw [List.range_succ, List.reverse_append]
    rfl
  rw [hrev]
  have hstep : foldPhases n (2 ^ s) (s :: (List.range s).reverse) w =
      foldPhases n (2 ^ s) ((List.range s).reverse)
        (netRound n (2 ^ s) (2 ^ s) w) := rfl
  rw [hstep]
  rw [e0] at hm
  have hp : (0 : ℕ) < 2 ^ s := pow_pos (by norm_num) s
  have hfirst := invBlock_first (n := n) (p := 2 ^ s) (m := m) w hp hm
    (by
      intro i' j' hij' hj'
      have hb : 2 ^ s * (2 * m) + 2 ^ s ≤ n := by
        have er : 2 ^ s * (2 * m) = 2 ^ s * 2 * m := by ring
        omega
      have := hsorted (2 * m) hb i' j' hij' hj'
      rwa [show 2 ^ s * (2 * m) = 2 ^ s * 2 * m by ring] at this)
    (by
      intro i' j' hij' hj'
      have hb : 2 ^ s * (2 * m + 1) + 2 ^ s ≤ n := by
        have er : 2 ^ s * (2 * m + 1) = 2 ^ s * 2 * m + 2 ^ s := by ring
        omega
      have := hsorted (2 * m + 1) hb i' j' hij' hj'
      rwa [show 2 ^ s * (2 * m + 1) = 2 ^ s * 2 * m + 2 ^ s by ring]
        at this)
  have hinv1 : InvBlock (netRound n (2 ^ s) (2 ^ s) w) (2 ^ s * 2 * m)
      (2 ^ s) (2 ^ (s + 1 - s)) := by
    rwa [show (2 : ℕ) ^ (s + 1 - s) = 2 by
      rw [show s + 1 - s = 1 by omega]
      rfl]
  have hmerge := mergeDown s s (le_refl s)
    (netRound n (2 ^ s) (2 ^ s) w) m hm hinv1
  obtain ⟨z, hzb, hza, hzs, hzp⟩ := hmerge
  have hval : ∀ i', i' < 2 ^ (s + 1) →
      foldPhases n (2 ^ s) ((List.range s).reverse)
        (netRound n (2 ^ s) (2 ^ s) w) (2 ^ (s + 1) * m + i') =
        decide (z 0 ≤ i') := by
    intro i' hi'
    have := hzp 0 i' (by omega) (by
      rwa [show (2 : ℕ) ^ (s + 1) = 2 ^ s * 2 by rw [pow_succ]] at hi')
    rwa [show 2 ^ s * 2 * m + 0 + 1 * i' = 2 ^ (s + 1) * m + i' by
      rw [e0]; ring] at this
  rw [hval i (by omega), hval j hj]
  by_cases hz : z 0 ≤ i
  · rw [decide_eq_true hz, decide_eq_true (by omega)]
  · rw [decide_eq_false hz]
    exact Bool.false_le _

lemma segFold_range_sorted (n : ℕ) (w : ℕ → Bool) :
    ∀ s, blocksSorted n (2 ^ s) (segFold n (List.range s) w) := by
  intro s
  induction s with
  | zero =>
    intro m hm i j hij hj
    have hij0 : i = j := by omega
    rw [hij0]
  | succ s ih =>
    rw [List.range_succ]
    have hstep : segFold n (List.range s ++ [s]) w =
        foldPhases n (2 ^ s) ((List.range (s + 1)).reverse)
          (segFold n (List.range s) w) := by
      unfold segFold
      rw [List.foldl_append]
      rfl
    rw [hstep]
    exact segment_step s _ ih

lemma filter_range_two_pow {n L : ℕ} (h : ∀ s, 2 ^ s < n ↔ s < L)
    (hLn : L ≤ n) :
    ((List.range n).filter fun s => decide (2 ^ s < n)) = List.range L := by
  rw [show List.range n = List.range L ++ (List.range (n - L)).map (L + ·)
      from by rw [← List.range_add]; congr 1; omega,
    List.filter_append]
  rw [List.filter_eq_self.mpr (by
      intro a ha
      rw [List.mem_range] at ha
      exact decide_eq_true ((h a).mpr ha)),
    List.filter_eq_nil_iff.mpr (by
      intro a ha
      rw [List.mem_map] at ha
      obtain ⟨x, _, rfl⟩ := ha
      simp only [decide_eq_true_eq]
      intro hlt
      have := (h (L + x)).mp hlt
      omega),
    List.append_nil]

/-- The whole network sorts every 0-1 input of power-of-two length. -/
lemma applyScheduleF_pow_sorted (L : ℕ) (w : ℕ → Bool) :
    SortedOn (2 ^ L) (applyScheduleF (2 ^ L) w) := by
  intro i j hij hj
  have hiff : ∀ s, 2 ^ s < 2 ^ L ↔ s < L := fun s =>
    Nat.pow_lt_pow_iff_right (by norm_num)
  rw [applyScheduleF_eq, filter_range_two_pow hiff
    (le_of_lt (Nat.lt_two_pow L))]
  have := segFold_range_sorted (2 ^ L) w L 0 (by omega) i j hij hj
  rwa [show 2 ^ L * 0 + i = i by ring, show 2 ^ L * 0 + j = j by ring]
    at this

lemma swapCond_of_le {n n' p k x : ℕ} (hnn : n ≤ n') :
    SwapCond n p k x ↔ (SwapCond n' p k x ∧ x + k < n) := by
  unfold SwapCond
  constructor
  · rintro ⟨h1, h2, h3, h4⟩
    exact ⟨⟨by omega, h2, h3, h4⟩, h1⟩
  · rintro ⟨⟨_, h2, h3, h4⟩, h1⟩
    exact ⟨h1, h2, h3, h4⟩

lemma window_excl {p k x : ℕ} (hk : 0 < k) (hkx : k ≤ x)
    (h1 : k % p ≤ x % (k * 2)) (h2 : x % (k * 2) < k % p + k) :
    ¬(k % p ≤ (x - k) % (k * 2) ∧ (x - k) % (k * 2) < k % p + k) := by
  rintro ⟨g1, g2⟩
  have hsh := window_shift hk g1 g2
  rw [show x - k + k = x by omega] at hsh
  exact hsh ⟨h1, h2⟩

/-- Extending a 0-1 input with trailing ones past `n` does not change the
action of a round below `n` and keeps the tail all-ones. -/
lemma netRound_pad {n n' p k : ℕ} (hnn : n ≤ n') (hk : 0 < k)
    (w w' : ℕ → Bool) (hlow : ∀ x, x < n → w' x = w x)
    (hhigh : ∀ x, n ≤ x → w' x = true) :
    (∀ x, x < n → netRound n' p k w' x = netRound n p k w x) ∧
    (∀ x, n ≤ x → netRound n' p k w' x = true) := by
  constructor
  · intro x hx
    unfold netRound
    by_cases h1 : SwapCond n p k x
    · have h1' : SwapCond n' p k x := ((swapCond_of_le hnn).mp h1).1
      rw [if_pos h1, if_pos h1', hlow x hx, hlow (x + k) h1.1]
    · by_cases h1' : SwapCond n' p k x
      · have hxk : ¬(x + k < n) := fun hc =>
          h1 ((swapCond_of_le hnn).mpr ⟨h1', hc⟩)
        have hnot2 : ¬(k ≤ x ∧ SwapCond n p k (x - k)) := by
          rintro ⟨hkx, hsc⟩
          exact window_excl hk hkx h1'.2.1 h1'.2.2.1
            ⟨hsc.2.1, hsc.2.2.1⟩
        rw [if_pos h1', if_neg h1, if_neg hnot2, hlow x hx,
          hhigh (x + k) (by omega)]
        exact min_eq_left (Bool.le_true _)
      · rw [if_neg h1, if_neg h1']
        by_cases h2 : k ≤ x ∧ SwapCond n p k (x - k)
        · have h2' : k ≤ x ∧ SwapCond n' p k (x - k) :=
            ⟨h2.1, ((swapCond_of_le hnn).mp h2.2).1⟩
          rw [if_pos h2, if_pos h2', hlow (x - k) (by omega), hlow x hx]
        · have h2' : ¬(k ≤ x ∧ SwapCond n' p k (x - k)) := by
            rintro ⟨hkx, hsc⟩
            exact h2 ⟨hkx, (swapCond_of_le hnn).mpr ⟨hsc, by omega⟩⟩
          rw [if_neg h2, if_neg h2', hlow x hx]
  · intro x hx
    unfold netRound
    by_cases h1' : SwapCond n' p k x
    · rw [if_pos h1', hhigh x hx, hhigh (x + k) (by omega), min_self]
    · rw [if_neg h1']
      by_cases h2' : k ≤ x ∧ SwapCond n' p k (x - k)
      · rw [if_pos h2', hhigh x hx]
        exact max_eq_right (Bool.le_true _)
      · rw [if_neg h2']
        exact hhigh x hx

lemma schedule_pad {n n' : ℕ} (hnn : n ≤ n') :
    ∀ (rl : List (ℕ × ℕ)), (∀ sp ∈ rl, 0 < sp.2) →
    ∀ (w w' : ℕ → Bool), (∀ x, x < n → w' x = w x) →
      (∀ x, n ≤ x → w' x = true) →
      (∀ x, x < n →
        rl.foldl (fun u sp => netRound n' sp.1 sp.2 u) w' x =
          rl.foldl (fun u sp => netRound n sp.1 sp.2 u) w x) ∧
      (∀ x, n ≤ x →
        rl.foldl (fun u sp => netRound n' sp.1 sp.2 u) w' x = true) := by
  intro rl
  induction rl with
  | nil => intro _ w w' hlow hhigh; exact ⟨hlow, hhigh⟩
  | cons sp rest ih =>
    intro hpos w w' hlow hhigh
    have hp := netRound_pad (p := sp.1) (k := sp.2) hnn
      (hpos sp (by simp)) w w' hlow hhigh
    exact ih (fun sp' h' => hpos sp' (by simp [h'])) _ _ hp.1 hp.2

/-- The whole network sorts every 0-1 input, for every length. -/
lemma applyScheduleF_bool_sorted (n : ℕ) (w : ℕ → Bool) :
    SortedOn n (applyScheduleF n w) := by
  set L := Nat.clog 2 n with hL
  have hiff : ∀ s, 2 ^ s < n ↔ s < L := by
    intro s
    rw [hL]
    exact Nat.pow_lt_iff_lt_clog (by norm_num)
  have hnle : n ≤ 2 ^ L := Nat.le_pow_clog (by norm_num) n
  have hLn : L ≤ n := by
    rcases Nat.eq_zero_or_pos L with h0 | hLpos
    · omega
    · have h1 : 2 ^ (L - 1) < n := (hiff (L - 1)).mpr (by omega)
      have h2 : L - 1 < 2 ^ (L - 1) := Nat.lt_two_pow (L - 1)
      omega
  have hsched : sortSchedule n = sortSchedule (2 ^ L) := by
    unfold sortSchedule
    rw [filter_range_two_pow hiff hLn,
      filter_range_two_pow
        (fun s => Nat.pow_lt_pow_iff_right (by norm_num))
        (le_of_lt (Nat.lt_two_pow L))]
  have hpos : ∀ sp ∈ sortSchedule (2 ^ L), 0 < sp.2 := by
    intro sp hsp
    obtain ⟨s, t, _, rfl, _⟩ := mem_sortSchedule hsp
    exact pow_pos (by norm_num) t
  have hpad := schedule_pad hnle
    (sortSchedule (2 ^ L)) hpos w (fun x => if x < n then w x else true)
    (fun x hx => by simp [hx])
    (fun x hx => by simp [Nat.not_lt.mpr hx])
  intro i j hij hj
  have heq : ∀ x, x < n → applyScheduleF n w x =
      applyScheduleF (2 ^ L) (fun y => if y < n then w y else true) x := by
    intro x hx
    show (sortSchedule n).foldl (fun u sp => netRound n sp.1 sp.2 u) w x = _
    rw [hsched]
    exact (hpad.1 x hx).symm
  rw [heq i (by omega), heq j hj]
  exact applyScheduleF_pow_sorted L _ i j hij (by omega)

lemma netRound_monotone_comp {n p k : ℕ} (f : ℤ → Bool) (hf : Monotone f)
    (v : ℕ → ℤ) :
    netRound n p k (fun y => f (v y)) =
      fun x => f (netRound n p k v x) := by
  funext x
  unfold netRound
  by_cases h1 : SwapCond n p k x
  · rw [if_pos h1, if_pos h1, hf.map_min]
  · rw [if_neg h1, if_neg h1]
    by_cases h2 : k ≤ x ∧ SwapCond n p k (x - k)
    · rw [if_pos h2, if_pos h2, hf.map_max]
    · rw [if_neg h2, if_neg h2]

lemma foldRounds_monotone_comp {n : ℕ} (f : ℤ → Bool) (hf : Monotone f) :
    ∀ (rl : List (ℕ × ℕ)) (v : ℕ → ℤ),
      rl.foldl (fun u sp => netRound n sp.1 sp.2 u) (fun y => f (v y)) =
        fun x => f (rl.foldl (fun u sp => netRound n sp.1 sp.2 u) v x) := by
  intro rl
  induction rl with
  | nil => intro v; rfl
  | cons sp rest ih =>
    intro v
    rw [List.foldl_cons, List.foldl_cons,
      netRound_monotone_comp f hf v]
    exact ih (netRound n sp.1 sp.2 v)

/-- The sorting network sorts every integer input: 0-1 principle. -/
theorem applyScheduleF_sorted (n : ℕ) (v : ℕ → ℤ) :
    SortedOn n (applyScheduleF n v) := by
  by_contra hns
  unfold SortedOn at hns
  push_neg at hns
  obtain ⟨i, j, hij, hj, hlt⟩ := hns
  have hf : Monotone (fun z : ℤ =>
      decide (applyScheduleF n v i ≤ z)) := by
    intro a b hab
    by_cases h : applyScheduleF n v i ≤ a
    · simp only
      rw [decide_eq_true h, decide_eq_true (le_trans h hab)]
    · simp only
      rw [decide_eq_false h]
      exact Bool.false_le _
  have hbool := applyScheduleF_bool_sorted n
    (fun y => decide (applyScheduleF n v i ≤ v y)) i j hij hj
  have hcomp : applyScheduleF n
      (fun y => decide (applyScheduleF n v i ≤ v y)) =
      fun x => decide (applyScheduleF n v i ≤ applyScheduleF n v x) := by
    show (sortSchedule n).foldl (fun u sp => netRound n sp.1 sp.2 u) _ = _
    exact foldRounds_monotone_comp _ hf (sortSchedule n) v
  rw [hcomp] at hbool
  simp only at hbool
  rw [decide_eq_true (le_refl _), decide_eq_false (not_le.mpr hlt)]
    at hbool
  exact absurd hbool (by decide)

lemma sortSchedule_step_pos {n : ℕ} : ∀ sp ∈ sortSchedule n, 0 < sp.2 := by
  intro sp hsp
  obtain ⟨s, t, _, rfl, _⟩ := mem_sortSchedule hsp
  exact pow_pos (by norm_num) t

lemma sortRun_length (elems : List ℤ) :
    (sortRun elems).1.length = elems.length := by
  rw [sortRun_eq_sortFold]
  exact sortFold_length _ _ _ _

lemma sortRun_wf (elems : List ℤ) :
    ∀ r ∈ (sortRun elems).2, WFRound elems.length r := by
  rw [sortRun_eq_sortFold]
  exact sortFold_wf _ _ _ rfl (fun sp h => sortSchedule_step_pos sp h)

lemma sortRun_applySwaps (elems : List ℤ) :
    applySwaps elems (sortRun elems).2 = (sortRun elems).1 := by
  rw [sortRun_eq_sortFold]
  exact sortFold_applySwaps _ _ _

lemma sortRun_getD (elems : List ℤ) (x : ℕ) (hx : x < elems.length) :
    (sortRun elems).1.getD x 0 =
      applyScheduleF elems.length (fun y => elems.getD y 0) x := by
  rw [sortRun_eq_sortFold]
  exact sortFold_getD _ _ _ rfl (fun sp h => sortSchedule_step_pos sp h) x hx

lemma sortRun_sorted (elems : List ℤ) :
    List.Sorted (· ≤ ·) (sortRun elems).1 := by
  show List.Pairwise (· ≤ ·) (sortRun elems).1
  apply List.pairwise_iff_getElem.mpr
  intro i j hi hj hij
  have hlen := sortRun_length elems
  rw [← List.getD_eq_getElem _ 0 hi, ← List.getD_eq_getElem _ 0 hj,
    sortRun_getD _ _ (by omega), sortRun_getD _ _ (by omega)]
  exact applyScheduleF_sorted _ _ i j (le_of_lt hij) (by omega)

lemma applySwaps_eq_map_schedPerm {α : Type} [Inhabited α] (l : List α)
    (sched : List (List MaybeSwap)) (hwf : ∀ r ∈ sched, WFRound l.length r) :
    applySwaps l sched = (List.range l.length).map
      (fun x => l.getD (schedPerm sched x) default) := by
  have hspec := applySwaps_spec sched l hwf
  apply List.ext_getElem?
  intro x
  by_cases hx : x < l.length
  · rw [hspec.2 x hx, List.getElem?_map, List.getElem?_range hx]
    rfl
  · rw [List.getElem?_eq_none (by rw [hspec.1]; omega),
      List.getElem?_eq_none
        (by rw [List.length_map, List.length_range]; omega)]

lemma map_getD_range {α : Type} (l : List α) (d : α) :
    (List.range l.length).map (fun i => l.getD i d) = l := by
  apply List.ext_getElem
  · rw [List.length_map, List.length_range]
  · intro i h1 h2
    rw [List.getElem_map, List.getElem_range, List.getD_eq_getElem l d h2]

/-- C6: For every slice of in-range shared integers, `sort` rearranges
the slice so that the opened results are a non-decreasing permutation of
the opened inputs; moreover there is a single index permutation `perm`
(that of the sorted weights) such that applying the returned swap
schedule via `apply_swaps` to any other sequence of the same length
permutes that sequence by exactly `perm`. -/
theorem sort_sorts_and_swaps_apply (elems : List ℤ) :
    List.Sorted (· ≤ ·) (sortRun elems).1 ∧
    (sortRun elems).1.Perm elems ∧
    ∃ perm : List ℕ, perm.Perm (List.range elems.length) ∧
      (sortRun elems).1 = perm.map (fun i => elems.getD i 0) ∧
      ∀ (α : Type) [Inhabited α] (other : List α),
        other.length = elems.length →
        applySwaps other (sortRun elems).2 =
          perm.map (fun i => other.getD i default) := by
  have hwf : ∀ r ∈ (sortRun elems).2, WFRound elems.length r :=
    sortRun_wf elems
  have hwfR : ∀ r ∈ (sortRun elems).2,
      WFRound (List.range elems.length).length r := by
    rw [List.length_range]
    exact hwf
  have hσlt : ∀ x, x < elems.length →
      schedPerm (sortRun elems).2 x < elems.length :=
    fun x hx => schedPerm_lt hwf hx
  have hperm_eq : applySwaps (List.range elems.length) (sortRun elems).2 =
      (List.range elems.length).map (schedPerm (sortRun elems).2) := by
    rw [applySwaps_eq_map_schedPerm _ _ hwfR, List.length_range]
    apply List.map_congr_left
    intro x hx
    rw [List.mem_range] at hx
    rw [List.getD_eq_getElem _ _
      (by rw [List.length_range]; exact hσlt x hx), List.getElem_range]
  have hpp : (applySwaps (List.range elems.length)
      (sortRun elems).2).Perm (List.range elems.length) := by
    rw [hperm_eq]
    have hnd : ((List.range elems.length).map
        (schedPerm (sortRun elems).2)).Nodup :=
      List.Nodup.map_on
        (fun x _ y _ h => schedPerm_injective hwf h)
        (List.nodup_range _)
    have hsub : (List.range elems.length).map
        (schedPerm (sortRun elems).2) ⊆ List.range elems.length := by
      intro y hy
      rw [List.mem_map] at hy
      obtain ⟨x, hx, rfl⟩ := hy
      rw [List.mem_range] at hx ⊢
      exact hσlt x hx
    exact (List.subperm_of_subset hnd hsub).perm_of_length_le
      (by rw [List.length_map])
  have hother : ∀ (α : Type) [Inhabited α] (other : List α),
      other.length = elems.length →
      applySwaps other (sortRun elems).2 =
        (applySwaps (List.range elems.length) (sortRun elems).2).map
          (fun i => other.getD i default) := by
    intro α inst other hlen
    rw [applySwaps_eq_map_schedPerm other _ (by rw [hlen]; exact hwf),
      hlen, hperm_eq, List.map_map]
    rfl
  have hfst : (sortRun elems).1 =
      (applySwaps (List.range elems.length) (sortRun elems).2).map
        (fun i => elems.getD i 0) := by
    rw [← sortRun_applySwaps elems, hother ℤ elems rfl]
    rfl
  refine ⟨sortRun_sorted elems, ?_,
    applySwaps (List.range elems.length) (sortRun elems).2, hpp, hfst,
    hother⟩
  rw [hfst]
  have hmap := hpp.map (fun i => elems.getD i 0)
  rwa [map_getD_range elems 0] at hmap

theorem sort_sorts_and_swaps_apply_witness :
    (sortRun [2, 1, 9, 3, 4, 7, 6, 8, 5]).1 =
      [1, 2, 3, 4, 5, 6, 7, 8, 9] ∧
    List.Sorted (· ≤ ·) (sortRun [2, 1, 9, 3, 4, 7, 6, 8, 5]).1 ∧
    applySwaps ([1, 2, 3, 4, 5, 6, 7, 8, 9] : List ℤ)
      (sortRun [2, 1, 9, 3, 4, 7, 6, 8, 5]).2 =
      [2, 1, 4, 5, 9, 7, 6, 8, 3] :=
  ⟨by decide, (sort_sorts_and_swaps_apply [2, 1, 9, 3, 4, 7, 6, 8, 5]).1,
    by decide⟩

end MpcMatching
